import Mathlib

/-!
Verification of the Evidence Graph & Triangulation Engine.

This file gives a shallow embedding of the core components of the
repository (graph engine, triangulator, entry tagger, quarantine engine)
and proves the specified properties about them.

Paths are modelled as `String` (repo-relative), sets of paths as
`Finset String` where the source uses Python sets, and association lists
`List (String × List String)` where the source uses adjacency dicts.
Ratios computed with Python float division are modelled with `ℚ`.
-/

namespace EntryPointVerif

/-- A Phase-1 file record: `{file, evidence, confidence, status}` dict
(fields used by the graph/quarantine engines). -/
structure FileEntry where
  file : String
  evidence : List String
  status : String
  confidence : String
deriving DecidableEq

/-- `self.graph.get(node, set())`: adjacency lookup in the graph dict,
empty set when the node is not a key. -/
def adjOf : List (String × List String) → String → List String
  | [], _ => []
  | (k, ns) :: rest, n => if k = n then ns else adjOf rest n

/-- The node set of the adjacency dict (its keys). -/
def gKeys (g : List (String × List String)) : List String := g.map Prod.fst

theorem adjOf_eq_nil {g : List (String × List String)} {n : String}
    (h : n ∉ gKeys g) : adjOf g n = [] := by
  induction g with
  | nil => rfl
  | cons p rest ih =>
    obtain ⟨k, ns⟩ := p
    simp only [gKeys, List.map_cons, List.mem_cons] at h
    push_neg at h
    simp only [adjOf, if_neg (Ne.symm h.1)]
    exact ih h.2

/-- `GraphEngine.get_reachable` / `Triangulator._compute_reach` /
`QuarantineEngine._compute_core_set` worklist: pop a node, skip it when
already visited, otherwise mark it visited and enqueue its unvisited
neighbours. -/
def bfsAux (g : List (String × List String)) (queue visited : List String) :
    List String :=
  match queue with
  | [] => visited
  | n :: rest =>
    if n ∈ visited then bfsAux g rest visited
    else
      bfsAux g (rest ++ (adjOf g n).filter (fun m => ¬ (m ∈ visited ∨ m = n)))
        (visited ++ [n])
termination_by (((gKeys g).toFinset \ visited.toFinset).card, queue.length)
decreasing_by
  · apply Prod.Lex.right
    simp
  · by_cases hk : n ∈ gKeys g
    · apply Prod.Lex.left
      apply Finset.card_lt_card
      rw [Finset.ssubset_iff_of_subset
        (Finset.sdiff_subset_sdiff (le_refl _) (by
          intro x hx
          simp only [List.toFinset_append, List.toFinset_cons,
            List.toFinset_nil, Finset.mem_union] at *
          exact Or.inl hx))]
      refine ⟨n, ?_, ?_⟩
      · simp only [Finset.mem_sdiff, List.mem_toFinset]
        exact ⟨hk, by assumption⟩
      · simp
    · have hadj : adjOf g n = [] := adjOf_eq_nil hk
      have hfst : ((gKeys g).toFinset \ (visited ++ [n]).toFinset).card
          = ((gKeys g).toFinset \ visited.toFinset).card := by
        congr 1
        ext x
        simp only [Finset.mem_sdiff, List.mem_toFinset, List.mem_append,
          List.mem_singleton]
        constructor
        · rintro ⟨hx, hnx⟩
          exact ⟨hx, fun hv => hnx (Or.inl hv)⟩
        · rintro ⟨hx, hnx⟩
          refine ⟨hx, ?_⟩
          rintro (hv | rfl)
          · exact hnx hv
          · exact hk hx
      rw [hfst, hadj]
      apply Prod.Lex.right
      simp

/-- `GraphEngine.get_reachable(start)`: BFS from a single start node. -/
def getReachable (g : List (String × List String)) (start : String) :
    List String :=
  bfsAux g [start] []

/-- Forward reachability from a seed list through the adjacency dict,
written directly from the description of the closure in the spec. -/
inductive Reaches (g : List (String × List String)) (seeds : List String) :
    String → Prop where
  | seed {x : String} : x ∈ seeds → Reaches g seeds x
  | step {x y : String} : Reaches g seeds x → y ∈ adjOf g x →
      Reaches g seeds y

theorem bfs_mono (g : List (String × List String))
    (queue visited : List String) :
    ∀ x ∈ visited, x ∈ bfsAux g queue visited := by
  induction queue, visited using bfsAux.induct with
  | g => exact g
  | case1 visited =>
    intro x hx
    simpa [bfsAux] using hx
  | case2 visited n rest hmem ih =>
    intro x hx
    rw [bfsAux, if_pos hmem]
    exact ih x hx
  | case3 visited n rest hmem ih =>
    intro x hx
    rw [bfsAux, if_neg hmem]
    exact ih x (by simp [hx])

theorem bfs_mem_queue (g : List (String × List String))
    (queue visited : List String) :
    ∀ x ∈ queue, x ∈ bfsAux g queue visited := by
  induction queue, visited using bfsAux.induct with
  | g => exact g
  | case1 visited =>
    intro x hx
    simp at hx
  | case2 visited n rest hmem ih =>
    intro x hx
    rw [bfsAux, if_pos hmem]
    rcases List.mem_cons.mp hx with rfl | hx
    · exact bfs_mono g rest visited x hmem
    · exact ih x hx
  | case3 visited n rest hmem ih =>
    intro x hx
    rw [bfsAux, if_neg hmem]
    rcases List.mem_cons.mp hx with rfl | hx
    · exact bfs_mono g _ _ x (by simp)
    · exact ih x (by simp [hx])

theorem bfs_sound (g : List (String × List String)) (P : String → Prop)
    (hstep : ∀ x y, P x → y ∈ adjOf g x → P y)
    (queue visited : List String) :
    (∀ x ∈ queue, P x) → (∀ x ∈ visited, P x) →
    ∀ x ∈ bfsAux g queue visited, P x := by
  induction queue, visited using bfsAux.induct with
  | g => exact g
  | case1 visited =>
    intro _ hv x hx
    rw [bfsAux] at hx
    exact hv x hx
  | case2 visited n rest hmem ih =>
    intro hq hv x hx
    rw [bfsAux, if_pos hmem] at hx
    exact ih (fun y hy => hq y (by simp [hy])) hv x hx
  | case3 visited n rest hmem ih =>
    intro hq hv x hx
    rw [bfsAux, if_neg hmem] at hx
    refine ih ?_ ?_ x hx
    · intro y hy
      rcases List.mem_append.mp hy with hy | hy
      · exact hq y (by simp [hy])
      · exact hstep n y (hq n (by simp)) (List.mem_of_mem_filter hy)
    · intro y hy
      rcases List.mem_append.mp hy with hy | hy
      · exact hv y hy
      · rcases List.mem_singleton.mp hy with rfl
        exact hq y (by simp)

theorem bfs_closed (g : List (String × List String))
    (queue visited : List String) :
    (∀ x ∈ visited, ∀ y ∈ adjOf g x, y ∈ visited ∨ y ∈ queue) →
    ∀ x ∈ bfsAux g queue visited, ∀ y ∈ adjOf g x,
      y ∈ bfsAux g queue visited := by
  induction queue, visited using bfsAux.induct with
  | g => exact g
  | case1 visited =>
    intro hinv x hx y hy
    rw [bfsAux] at hx ⊢
    rcases hinv x hx y hy with h | h
    · exact h
    · simp at h
  | case2 visited n rest hmem ih =>
    intro hinv x hx y hy
    rw [bfsAux, if_pos hmem] at hx ⊢
    refine ih ?_ x hx y hy
    intro a ha b hb
    rcases hinv a ha b hb with h | h
    · exact Or.inl h
    · rcases List.mem_cons.mp h with rfl | h
      · exact Or.inl hmem
      · exact Or.inr h
  | case3 visited n rest hmem ih =>
    intro hinv x hx y hy
    rw [bfsAux, if_neg hmem] at hx ⊢
    refine ih ?_ x hx y hy
    intro a ha b hb
    rcases List.mem_append.mp ha with ha | ha
    · rcases hinv a ha b hb with h | h
      · exact Or.inl (by simp [h])
      · rcases List.mem_cons.mp h with rfl | h
        · exact Or.inl (by simp)
        · exact Or.inr (by simp [h])
    · rcases List.mem_singleton.mp ha with rfl
      by_cases hbv : b ∈ visited ∨ b = a
      · rcases hbv with h | rfl
        · exact Or.inl (by simp [h])
        · exact Or.inl (by simp)
      · exact Or.inr (List.mem_append.mpr (Or.inr (List.mem_filter.mpr
          ⟨hb, by simpa using hbv⟩)))

/-- The worklist computes exactly the forward-reachability closure of its
seed list. -/
theorem mem_bfs_iff_reaches (g : List (String × List String))
    (seeds : List String) (x : String) :
    x ∈ bfsAux g seeds [] ↔ Reaches g seeds x := by
  constructor
  · intro hx
    refine bfs_sound g (Reaches g seeds)
      (fun a b ha hb => Reaches.step ha hb) seeds []
      (fun a ha => Reaches.seed ha) (by intro a ha; simp at ha) x hx
  · intro hr
    induction hr with
    | seed h => exact bfs_mem_queue g seeds [] _ h
    | step _ hadj ih =>
      exact bfs_closed g seeds [] (by intro a ha; simp at ha) _ ih _ hadj

/-- `if rel not in self.graph: self.graph[rel] = set()`: register a file
as a node with no edges. -/
def addNode (g : List (String × List String)) (n : String) :
    List (String × List String) :=
  if n ∈ gKeys g then g else g ++ [(n, [])]

/-- `self.graph[src_rel].add(tgt_rel)`: insert an edge into the adjacency
dict (defaultdict semantics: the source key is created on demand; the
target set ignores duplicates). -/
def addEdge : List (String × List String) → String → String →
    List (String × List String)
  | [], s, t => [(s, [t])]
  | (k, ns) :: rest, s, t =>
    if k = s then (k, if t ∈ ns then ns else ns ++ [t]) :: rest
    else (k, ns) :: addEdge rest s t

/-- One relation of the edge loops of `build_graph`: the edge is inserted when
both endpoints are non-empty strings (`if src_rel and tgt_rel`) and
distinct (`src_rel != tgt_rel`); self-edges and falsy endpoints are
dropped. -/
def insRel (g : List (String × List String)) (r : String × String) :
    List (String × List String) :=
  if r.1 ≠ "" ∧ r.2 ≠ "" ∧ r.1 ≠ r.2 then addEdge g r.1 r.2 else g

/-- `GraphEngine.build_graph`: add every file record as a node, then
insert static edges, then dynamic edges, through the same guarded
insertion. -/
def buildGraph (fd : List FileEntry) (staticRels dynRels : List (String × String)) :
    List (String × List String) :=
  let g0 := fd.foldl (fun g e => addNode g e.file) []
  let g1 := staticRels.foldl insRel g0
  dynRels.foldl insRel g1

theorem mem_keys_addNode_self (g : List (String × List String)) (n : String) :
    n ∈ gKeys (addNode g n) := by
  unfold addNode
  split
  · assumption
  · simp [gKeys]

theorem mem_keys_addNode_of {g : List (String × List String)} {k : String}
    (n : String) (h : k ∈ gKeys g) : k ∈ gKeys (addNode g n) := by
  unfold addNode
  split
  · exact h
  · simp only [gKeys, List.map_append]
    exact List.mem_append.mpr (Or.inl h)

theorem mem_keys_addEdge_of {g : List (String × List String)} {k : String}
    (s t : String) (h : k ∈ gKeys g) : k ∈ gKeys (addEdge g s t) := by
  induction g with
  | nil => simp [gKeys] at h
  | cons p rest ih =>
    obtain ⟨a, ns⟩ := p
    simp only [gKeys, List.map_cons, List.mem_cons] at h
    unfold addEdge
    split
    · simpa [gKeys] using h
    · rcases h with rfl | h
      · simp [gKeys]
      · simp only [gKeys, List.map_cons, List.mem_cons]
        exact Or.inr (ih h)

theorem mem_keys_insRel_of {g : List (String × List String)} {k : String}
    (r : String × String) (h : k ∈ gKeys g) : k ∈ gKeys (insRel g r) := by
  unfold insRel
  split
  · exact mem_keys_addEdge_of _ _ h
  · exact h

theorem mem_keys_foldIns {k : String} :
    ∀ (rels : List (String × String)) (g : List (String × List String)),
      k ∈ gKeys g → k ∈ gKeys (rels.foldl insRel g) := by
  intro rels
  induction rels with
  | nil => intro g h; exact h
  | cons r rest ih =>
    intro g h
    exact ih _ (mem_keys_insRel_of r h)

theorem mem_keys_foldAddNode {k : String} :
    ∀ (fd : List FileEntry) (g : List (String × List String)),
      k ∈ gKeys g → k ∈ gKeys (fd.foldl (fun g e => addNode g e.file) g) := by
  intro fd
  induction fd with
  | nil => intro g h; exact h
  | cons f rest ih =>
    intro g h
    exact ih _ (mem_keys_addNode_of _ h)

theorem file_mem_keys_foldAddNode {e : FileEntry} :
    ∀ (fd : List FileEntry) (g : List (String × List String)),
      e ∈ fd → e.file ∈ gKeys (fd.foldl (fun g e => addNode g e.file) g) := by
  intro fd
  induction fd with
  | nil => intro g h; simp at h
  | cons f rest ih =>
    intro g h
    rcases List.mem_cons.mp h with rfl | h
    · exact mem_keys_foldAddNode rest _ (mem_keys_addNode_self g e.file)
    · exact ih _ h

/-- No entry of the adjacency dict lists itself as a neighbour. -/
def NoSelf (g : List (String × List String)) : Prop :=
  ∀ p ∈ g, p.1 ∉ p.2

theorem noSelf_addNode {g : List (String × List String)} (n : String)
    (h : NoSelf g) : NoSelf (addNode g n) := by
  unfold addNode
  split
  · exact h
  · intro p hp
    rcases List.mem_append.mp hp with hp | hp
    · exact h p hp
    · rcases List.mem_singleton.mp hp with rfl
      simp

theorem noSelf_addEdge {g : List (String × List String)} {s t : String}
    (hst : s ≠ t) (h : NoSelf g) : NoSelf (addEdge g s t) := by
  induction g with
  | nil =>
    intro p hp
    rcases List.mem_singleton.mp hp with rfl
    simpa using hst
  | cons q rest ih =>
    obtain ⟨a, ns⟩ := q
    have ha : a ∉ ns := h (a, ns) (by simp)
    have hrest : NoSelf rest := fun p hp => h p (by simp [hp])
    unfold addEdge
    split
    · rename_i heq
      subst heq
      intro p hp
      rcases List.mem_cons.mp hp with rfl | hp
      · split
        · exact ha
        · simp only [List.mem_append, List.mem_singleton]
          rintro (hmem | rfl)
          · exact ha hmem
          · exact hst rfl
      · exact hrest p hp
    · intro p hp
      rcases List.mem_cons.mp hp with rfl | hp
      · exact ha
      · exact ih hrest p hp

theorem noSelf_insRel {g : List (String × List String)}
    (r : String × String) (h : NoSelf g) : NoSelf (insRel g r) := by
  unfold insRel
  split
  · rename_i hc
    exact noSelf_addEdge hc.2.2 h
  · exact h

theorem noSelf_foldIns :
    ∀ (rels : List (String × String)) (g : List (String × List String)),
      NoSelf g → NoSelf (rels.foldl insRel g) := by
  intro rels
  induction rels with
  | nil => intro g h; exact h
  | cons r rest ih =>
    intro g h
    exact ih _ (noSelf_insRel r h)

theorem noSelf_foldAddNode :
    ∀ (fd : List FileEntry) (g : List (String × List String)),
      NoSelf g → NoSelf (fd.foldl (fun g e => addNode g e.file) g) := by
  intro fd
  induction fd with
  | nil => intro g h; exact h
  | cons f rest ih =>
    intro g h
    exact ih _ (noSelf_addNode _ h)

theorem noSelf_adjOf {g : List (String × List String)} (h : NoSelf g)
    (s : String) : s ∉ adjOf g s := by
  induction g with
  | nil => simp [adjOf]
  | cons p rest ih =>
    obtain ⟨a, ns⟩ := p
    unfold adjOf
    split
    · rename_i heq
      subst heq
      exact h (a, ns) (by simp)
    · exact ih fun p hp => h p (by simp [hp])

theorem mem_keys_of_adjOf {g : List (String × List String)} {s t : String}
    (h : t ∈ adjOf g s) : s ∈ gKeys g := by
  by_contra hk
  rw [adjOf_eq_nil hk] at h
  simp at h

/-- C8 (amended): in the graph returned by `build_graph`, every file
record appears as a node even with zero edges, no entry lists itself as a
neighbour (no self-edges), and the source endpoint of every inserted edge
is a node; a target endpoint that is neither a file record nor itself an
edge source is, however, not added as a node (see the counterexample). -/
theorem buildGraph_nodes_spec (fd : List FileEntry)
    (staticRels dynRels : List (String × String)) :
    (∀ e ∈ fd, e.file ∈ gKeys (buildGraph fd staticRels dynRels)) ∧
    (∀ n, n ∉ adjOf (buildGraph fd staticRels dynRels) n) ∧
    (∀ s t, t ∈ adjOf (buildGraph fd staticRels dynRels) s →
      s ∈ gKeys (buildGraph fd staticRels dynRels)) := by
  refine ⟨?_, ?_, ?_⟩
  · intro e he
    exact mem_keys_foldIns _ _ (mem_keys_foldIns _ _
      (file_mem_keys_foldAddNode fd [] he))
  · intro n
    exact noSelf_adjOf
      (noSelf_foldIns _ _ (noSelf_foldIns _ _
        (noSelf_foldAddNode fd [] (by intro p hp; simp at hp)))) n
  · intro s t h
    exact mem_keys_of_adjOf h

/-- C8 counterexample: `build_graph` does not add a bare edge target as a
node.  With no file records and the single static edge `("a", "b")`, the
edge is inserted but `"b"` is not a node of the returned adjacency dict,
refuting the claim that every endpoint of every inserted edge exists as a
node. -/
theorem buildGraph_target_missing :
    "b" ∈ adjOf (buildGraph [] [("a", "b")] []) "a" ∧
    "b" ∉ gKeys (buildGraph [] [("a", "b")] []) := by decide

/-- C4: `get_reachable(start)` contains `start`, is closed under the edge
relation (no edge from a member leads outside the result), and for a
start node that is not a node of the graph the result is the singleton
`[start]`. -/
theorem getReachable_spec (g : List (String × List String)) (start : String) :
    start ∈ getReachable g start ∧
    (∀ n ∈ getReachable g start, ∀ m ∈ adjOf g n, m ∈ getReachable g start) ∧
    (start ∉ gKeys g → getReachable g start = [start]) := by
  refine ⟨?_, ?_, ?_⟩
  · exact bfs_mem_queue g [start] [] start (by simp)
  · exact bfs_closed g [start] [] (by intro x hx; simp at hx)
  · intro h
    rw [getReachable, bfsAux]
    simp only [List.not_mem_nil, if_false]
    rw [adjOf_eq_nil h]
    simp only [List.filter_nil, List.append_nil, List.nil_append]
    rw [bfsAux]

/-- Witness for C4 at a concrete graph: reachability from `"a"` in the
one-edge graph contains `"a"`, and from the unknown node `"z"` it is the
singleton. -/
theorem getReachable_spec_witness :
    "a" ∈ getReachable [("a", ["b"])] "a" ∧
    getReachable [("a", ["b"])] "z" = ["z"] :=
  ⟨(getReachable_spec [("a", ["b"])] "a").1,
   (getReachable_spec [("a", ["b"])] "z").2.2 (by decide)⟩

/-- Witness for C8 at a concrete input: the file record `"f"` is a node of
the built graph, and the inserted edge source `"a"` is a node. -/
theorem buildGraph_nodes_spec_witness :
    (⟨"f", [], "ACTIVE", "LOW"⟩ : FileEntry).file ∈
      gKeys (buildGraph [⟨"f", [], "ACTIVE", "LOW"⟩] [("a", "b")] []) ∧
    "a" ∈ gKeys (buildGraph [⟨"f", [], "ACTIVE", "LOW"⟩] [("a", "b")] []) :=
  ⟨(buildGraph_nodes_spec [⟨"f", [], "ACTIVE", "LOW"⟩] [("a", "b")] []).1
      _ (by simp),
   (buildGraph_nodes_spec [⟨"f", [], "ACTIVE", "LOW"⟩] [("a", "b")] []).2.2
      "a" "b" (by decide)⟩

/-- A classified entrypoint candidate as consumed by the quarantine
engine (`ep["path"]`, `ep.get("eligible_for_primary")`). -/
structure EPCandidate where
  path : String
  eligible : Bool
deriving DecidableEq

/-- The BFS seed set of `_compute_core_set`: paths of candidates with
`eligible_for_primary` set. -/
def coreSeeds (cands : List EPCandidate) : List String :=
  (cands.filter (fun c => c.eligible)).map (fun c => c.path)

/-- `QuarantineEngine._compute_core_set`: BFS from all eligible
entrypoints through the import graph. -/
def computeCoreSet (g : List (String × List String))
    (cands : List EPCandidate) : List String :=
  bfsAux g (coreSeeds cands) []

/-- Quarantine tiers. -/
inductive Tier where
  | t0 | t1 | t2 | t3
deriving DecidableEq

/-- `path.replace("\\", "/").lower()` applied per character. -/
def normChar (c : Char) : Char := if c = '\\' then '/' else c.toLower

/-- Python `str.split("/")`: always non-empty, `""` splits to `[""]`. -/
def splitSlash : List Char → List (List Char)
  | [] => [[]]
  | c :: cs =>
    match splitSlash cs with
    | [] => [[]]
    | s :: rest => if c = '/' then [] :: s :: rest else (c :: s) :: rest

/-- `path.replace("\\", "/").lower().split("/")`. -/
def pathParts (p : String) : List (List Char) :=
  splitSlash (p.data.map normChar)

/-- `_v\d+\.py$` (case-insensitive, on an already-lowercased path). -/
def matchesVNum (l : List Char) : Bool :=
  match l.reverse with
  | 'y' :: 'p' :: '.' :: rest =>
    let ds := rest.takeWhile Char.isDigit
    !ds.isEmpty &&
      (match rest.drop ds.length with
       | 'v' :: '_' :: _ => true
       | _ => false)
  | _ => false

/-- The anchored suffixes of `SHADOW_PATTERNS` other than `_v\d+\.py$`. -/
def shadowSuffixes : List (List Char) :=
  ["_old.py", "_backup.py", "_deprecated.py", "_legacy.py", "_bak.py",
   ".bak", "_copy.py", "_orig.py"].map String.data

/-- `QuarantineEngine._matches_shadow`: any of the case-insensitive
legacy-naming patterns matches the path. -/
def matchesShadow (p : String) : Bool :=
  let l := p.data.map Char.toLower
  shadowSuffixes.any (fun s => s.isSuffixOf l) || matchesVNum l

/-- `DEFAULT_PERIPHERY` directory names. -/
def peripheryDirs : List (List Char) :=
  ["gui", "tools", "scripts", "docs", "doc", "examples", "samples",
   "bench", "benchmark", "vendor", "third_party", "external"].map String.data

/-- `QuarantineEngine._in_engine_scope`: true when scopes is `["."]`,
otherwise exact match or prefix match on a scope followed by `/`. -/
def inEngineScope (scopes : List String) (p : String) : Bool :=
  if scopes = ["."] then true
  else scopes.any (fun s => p = s || (s.data ++ ['/']).isPrefixOf p.data)

/-- The ordered rule cascade of `QuarantineEngine.build_plan`, first
match wins, one tier per file record. -/
def tierOf (core : List String) (scopes : List String) (excl : List String)
    (e : FileEntry) : Tier :=
  if e.file ∈ core then .t0
  else if inEngineScope scopes e.file ∧ e.confidence = "HIGH" then .t0
  else if inEngineScope scopes e.file ∧ e.evidence ≠ [] ∧
      e.status = "ACTIVE" then .t0
  else
    let parts := pathParts e.file
    let topDir := parts.headD []
    if ("archive".data ∈ parts) ∨ matchesShadow e.file then .t2
    else if topDir ∈ excl.map String.data then .t1
    else if topDir ∈ peripheryDirs then .t1
    else if ¬ inEngineScope scopes e.file ∧ scopes ≠ ["."] then .t1
    else if e.evidence = [] ∧ e.status = "LEGACY" then .t3
    else .t0

/-- The four tier lists of a quarantine plan. -/
structure QPlan where
  t0 : List FileEntry
  t1 : List FileEntry
  t2 : List FileEntry
  t3 : List FileEntry
deriving DecidableEq

/-- Python list-of-strings `<` on `x["file"]`, used as the per-tier sort
key. -/
def charListLe : List Char → List Char → Bool
  | [], _ => true
  | _ :: _, [] => false
  | a :: as, b :: bs => a < b || (a = b && charListLe as bs)

/-- `tier.sort(key=lambda x: x["file"])` (stable merge sort). -/
def sortTier (l : List FileEntry) : List FileEntry :=
  l.mergeSort (fun a b => charListLe a.file.data b.file.data)

/-- `QuarantineEngine.build_plan`: classify every file record by the rule
cascade and sort each tier by path.  `engine_scopes or ["."]` is the
normalization applied by the constructor to an empty scope list. -/
def buildPlan (fd : List FileEntry) (g : List (String × List String))
    (cands : List EPCandidate) (scopes excl : List String) : QPlan :=
  let scopes' := if scopes = [] then ["."] else scopes
  let core := computeCoreSet g cands
  { t0 := sortTier (fd.filter (fun e => decide (tierOf core scopes' excl e = .t0))),
    t1 := sortTier (fd.filter (fun e => decide (tierOf core scopes' excl e = .t1))),
    t2 := sortTier (fd.filter (fun e => decide (tierOf core scopes' excl e = .t2))),
    t3 := sortTier (fd.filter (fun e => decide (tierOf core scopes' excl e = .t3))) }

/-- The tier list of a plan selected by tier. -/
def planTier (p : QPlan) : Tier → List FileEntry
  | .t0 => p.t0
  | .t1 => p.t1
  | .t2 => p.t2
  | .t3 => p.t3

theorem mem_planTier (fd : List FileEntry) (g : List (String × List String))
    (cands : List EPCandidate) (scopes excl : List String) (e : FileEntry)
    (t : Tier) :
    e ∈ planTier (buildPlan fd g cands scopes excl) t ↔
      e ∈ fd ∧ tierOf (computeCoreSet g cands)
        (if scopes = [] then ["."] else scopes) excl e = t := by
  cases t <;>
    simp [buildPlan, planTier, sortTier, List.mem_mergeSort, List.mem_filter]

/-- C1: `build_plan` assigns each file record to exactly one tier among
T0–T3, and T0 contains every file record whose path lies in the
forward-reachability closure of the eligible entrypoints through
the import graph. -/
theorem buildPlan_partition (fd : List FileEntry)
    (g : List (String × List String)) (cands : List EPCandidate)
    (scopes excl : List String) (e : FileEntry) (he : e ∈ fd) :
    (∃! t : Tier, e ∈ planTier (buildPlan fd g cands scopes excl) t) ∧
    (Reaches g (coreSeeds cands) e.file →
      e ∈ (buildPlan fd g cands scopes excl).t0) := by
  constructor
  · refine ⟨tierOf (computeCoreSet g cands)
      (if scopes = [] then ["."] else scopes) excl e, ?_, ?_⟩
    · exact (mem_planTier fd g cands scopes excl e _).mpr ⟨he, rfl⟩
    · intro t ht
      exact ((mem_planTier fd g cands scopes excl e t).mp ht).2.symm
  · intro hr
    have hcore : e.file ∈ computeCoreSet g cands :=
      (mem_bfs_iff_reaches g (coreSeeds cands) e.file).mpr hr
    have : e ∈ planTier (buildPlan fd g cands scopes excl) .t0 :=
      (mem_planTier fd g cands scopes excl e .t0).mpr
        ⟨he, by rw [tierOf, if_pos hcore]⟩
    simpa [planTier] using this

/-- Witness for C1: a record reachable from the eligible seed `"a"`
through the edge `a → b` lands in T0, and gets exactly one tier. -/
theorem buildPlan_partition_witness :
    (∃! t : Tier, (⟨"b", [], "LEGACY", "LOW"⟩ : FileEntry) ∈
      planTier (buildPlan [⟨"b", [], "LEGACY", "LOW"⟩] [("a", ["b"])]
        [⟨"a", true⟩] ["."] []) t) ∧
    (⟨"b", [], "LEGACY", "LOW"⟩ : FileEntry) ∈
      (buildPlan [⟨"b", [], "LEGACY", "LOW"⟩] [("a", ["b"])]
        [⟨"a", true⟩] ["."] []).t0 := by
  have h := buildPlan_partition [⟨"b", [], "LEGACY", "LOW"⟩] [("a", ["b"])]
    [⟨"a", true⟩] ["."] [] ⟨"b", [], "LEGACY", "LOW"⟩ (by simp)
  exact ⟨h.1, h.2 (Reaches.step (x := "a") (Reaches.seed (by decide)) (by decide))⟩

/-- `max(len(v) for v in self.graph.values())` with 0 for the empty
graph. -/
def maxOutDeg (g : List (String × List String)) : ℕ :=
  (g.map (fun p => p.2.length)).foldr max 0

/-- `EntryTagger._compute_centrality`: out-degree normalized against the
maximum out-degree of the graph, clipped to 1. -/
def computeCentrality (g : List (String × List String)) (p : String) : ℚ :=
  if g = [] then 0
  else if (adjOf g p).length = 0 then 0
  else min (((adjOf g p).length : ℚ) / ((max (maxOutDeg g) 1 : ℕ) : ℚ)) 1

/-- The last path segment of the lowercased path: where the anchored
filename regexes of `ENGINE_NAME_PATTERNS` can match. -/
def lastSeg (p : String) : List Char :=
  (splitSlash (p.data.map Char.toLower)).getLastD []

/-- `\w` (ASCII, on a lowercased path). -/
def isWordChar (c : Char) : Bool := c.isAlphanum || c = '_'

/-- `[\w_]*\.py` : optional word characters followed by `.py`. -/
def wordPyTail (rest : List Char) : Bool :=
  rest.length ≥ 3 && rest.drop (rest.length - 3) == ['.', 'p', 'y'] &&
    (rest.take (rest.length - 3)).all isWordChar

/-- `(?:^|/)(?:k₁|k₂|…)[\w_]*\.py$` : a filename starting with one of the
keywords, continuing with word characters and ending in `.py`. -/
def kwTail (kws : List (List Char)) (seg : List Char) : Bool :=
  kws.any (fun k => k.isPrefixOf seg && wordPyTail (seg.drop k.length))

/-- `(?:^|/)(?:n₁|n₂|…)\.py$` : an exact filename from a fixed list. -/
def exactPy (names : List (List Char)) (seg : List Char) : Bool :=
  names.any (fun n => seg == n)

/-- `EntryTagger._naming_score`: sum of the fixed
`ENGINE_NAME_PATTERNS` weights of the matching patterns, capped at 1. -/
def namingScore (p : String) : ℚ :=
  let seg := lastSeg p
  min ((if kwTail ["launch".data, "boot".data, "start".data] seg
          then (15 : ℚ)/100 else 0) +
       (if exactPy ["main.py".data] seg then (10 : ℚ)/100 else 0) +
       (if exactPy ["server.py".data, "app.py".data, "wsgi.py".data,
            "asgi.py".data] seg then (10 : ℚ)/100 else 0) +
       (if kwTail ["run".data, "entry".data, "init".data] seg
          then (8 : ℚ)/100 else 0) +
       (if kwTail ["engine".data, "runtime".data, "driver".data,
            "core".data] seg then (8 : ℚ)/100 else 0) +
       (if kwTail ["sim_runtime".data] seg then (10 : ℚ)/100 else 0)) 1

/-- `EntryTagger._role_boost`: `min(best/12, 1)` for the boot/driver
roles, a fixed `0.3` for the CLI role, `0` otherwise. -/
def roleBoost (role : String) (scores : List (String × ℕ)) : ℚ :=
  if role = "infrastructure_boot" ∨ role = "core_logic_driver" then
    let best : ℕ := if scores = [] then 0 else (scores.map Prod.snd).foldr max 0
    min ((best : ℚ) / 12) 1
  else if role = "tooling_cli" then 3/10
  else 0

/-- The composite-score computation of `EntryTagger.tag_all`, in the
order of operations of the source, including the `* 0.3` eligibility gate. -/
def compositeScore (g : List (String × List String)) (p : String)
    (coverRatio : ℚ) (role : String) (scores : List (String × ℕ))
    (hasMain eligible : Bool) : ℚ :=
  let c := coverRatio * (35/100) + computeCentrality g p * (25/100) +
           namingScore p * (15/100) + roleBoost role scores * (15/100) +
           (if hasMain then (10 : ℚ)/100 else 0)
  if eligible then c else c * (3/10)

theorem outd_le_maxOutDeg (g : List (String × List String)) (p : String) :
    (adjOf g p).length ≤ maxOutDeg g := by
  induction g with
  | nil => simp [adjOf]
  | cons q rest ih =>
    obtain ⟨k, ns⟩ := q
    unfold adjOf maxOutDeg
    simp only [List.map_cons, List.foldr_cons]
    split
    · exact Nat.le_max_left _ _
    · exact le_trans ih (Nat.le_max_right _ _)

theorem computeCentrality_eq (g : List (String × List String)) (p : String) :
    computeCentrality g p = ((adjOf g p).length : ℚ) / (maxOutDeg g : ℚ) := by
  unfold computeCentrality
  split
  · rename_i hg
    subst hg
    simp [adjOf]
  · rename_i hg
    split
    · rename_i hd
      rw [hd]
      simp
    · rename_i hd
      have h1 : 1 ≤ (adjOf g p).length := Nat.one_le_iff_ne_zero.mpr hd
      have hle : (adjOf g p).length ≤ maxOutDeg g := outd_le_maxOutDeg g p
      have hm1 : 1 ≤ maxOutDeg g := le_trans h1 hle
      rw [Nat.max_eq_left hm1]
      apply min_eq_left
      rw [div_le_one (by exact_mod_cast Nat.lt_of_lt_of_le Nat.zero_lt_one hm1)]
      exact_mod_cast hle

/-- C9: for every tagged candidate, the composite score equals
`0.35·coverRatio + 0.25·centrality + 0.15·namingBoost + 0.15·roleBoost
+ 0.10·hasGuardBlock`, with centrality the out-degree of the candidate
normalized by the maximum out-degree of the graph, namingBoost the capped sum
of fixed filename-pattern weights, roleBoost `min(best/12, 1)` for
boot/driver and `0.3` for the CLI role; the score of an ineligible candidate
is this value multiplied by `0.3`, not zeroed. -/
theorem compositeScore_spec (g : List (String × List String)) (p : String)
    (coverRatio : ℚ) (role : String) (scores : List (String × ℕ))
    (hasMain eligible : Bool) :
    compositeScore g p coverRatio role scores hasMain eligible =
      (if eligible then (1 : ℚ) else 3/10) *
        ((35/100) * coverRatio +
         (25/100) * (((adjOf g p).length : ℚ) / (maxOutDeg g : ℚ)) +
         (15/100) * namingScore p +
         (15/100) * roleBoost role scores +
         (10/100) * (if hasMain then (1 : ℚ) else 0)) := by
  unfold compositeScore
  rw [computeCentrality_eq]
  cases eligible <;> cases hasMain <;> simp <;> ring

/-- A ranked entrypoint as produced by `Triangulator.rank_entrypoints`:
path, `coverage.cover_nodes`, `coverage.cover_ratio`, and the
`in_engine_scope` tag. -/
structure REntry where
  path : String
  coverNodes : ℕ
  coverRatio : ℚ
  inScope : Bool
deriving DecidableEq

/-- `Triangulator._compute_reach` as a set (the BFS visited set). -/
def reachF (g : List (String × List String)) (p : String) : Finset String :=
  (bfsAux g [p] []).toFinset

/-- `Triangulator.rank_entrypoints`: empty result on an empty target;
otherwise one entry per candidate with `covered = reachable ∩ target`,
`cover_ratio = len(covered)/len(target)`, the scope tag, sorted by
descending covered count then path. -/
def rankEntrypoints (g : List (String × List String)) (cands : List String)
    (target : Finset String) (scopes : List String) : List REntry :=
  if target = ∅ then []
  else
    (cands.map (fun c =>
      { path := c,
        coverNodes := (reachF g c ∩ target).card,
        coverRatio := ((reachF g c ∩ target).card : ℚ) / (target.card : ℚ),
        inScope := if scopes = [] ∨ scopes = ["."] then true
          else scopes.any (fun s => c = s || (s.data ++ ['/']).isPrefixOf c.data)
        : REntry })).mergeSort
      (fun a b => decide (b.coverNodes < a.coverNodes) ||
        (decide (a.coverNodes = b.coverNodes) && charListLe a.path.data b.path.data))

/-- `len(reachable ∩ remaining_target)`: the marginal gain of a candidate
against the remaining uncovered target. -/
def mGain (g : List (String × List String)) (remaining : Finset String)
    (p : String) : ℕ :=
  (reachF g p ∩ remaining).card

/-- One iteration of the inner best-candidate scan of
`select_engines`: skip already-selected paths, keep the entry whose gain
strictly exceeds the best so far (`best_gain` starts at 0). -/
def bestStep (g : List (String × List String)) (remaining : Finset String)
    (chosen : List String) (acc : Option REntry × ℕ) (e : REntry) :
    Option REntry × ℕ :=
  if e.path ∈ chosen then acc
  else if acc.2 < mGain g remaining e.path then (some e, mGain g remaining e.path)
  else acc

/-- The inner scan of `select_engines`: the best not-yet-chosen entry, or
`None` when every gain is zero (`best is None or best_gain == 0`). -/
def bestOf (g : List (String × List String)) (remaining : Finset String)
    (chosen : List String) (ranked : List REntry) : Option REntry :=
  (ranked.foldl (bestStep g remaining chosen) (none, 0)).1

/-- `len(covered)/len(target) if target else 0.0`. -/
def ratioQ (target cov : Finset String) : ℚ :=
  if target = ∅ then 0 else (cov.card : ℚ) / (target.card : ℚ)

/-- The greedy loop of `Triangulator.select_engines`: bounded by `max_k`
iterations; stop on empty remaining target, on no positive marginal
gain, or once the cumulative coverage ratio reaches the threshold
(checked after each pick). -/
def selectLoop (g : List (String × List String)) (ranked : List REntry)
    (target : Finset String) (threshold : ℚ) :
    ℕ → List REntry → Finset String → Finset String →
    List REntry × Finset String
  | 0, sel, cov, _ => (sel, cov)
  | Nat.succ k, sel, cov, rem =>
    if rem = ∅ then (sel, cov)
    else
      match bestOf g rem (sel.map (fun s => s.path)) ranked with
      | none => (sel, cov)
      | some best =>
        if threshold ≤ ratioQ target (cov ∪ (reachF g best.path ∩ target)) then
          (sel ++ [best], cov ∪ (reachF g best.path ∩ target))
        else
          selectLoop g ranked target threshold k (sel ++ [best])
            (cov ∪ (reachF g best.path ∩ target)) (rem \ reachF g best.path)

/-- The result record of `select_engines` (selected list and
`coverage_summary`). -/
structure SelectResult where
  selected : List REntry
  coveredCount : ℕ
  coverageRatio : ℚ
deriving DecidableEq

/-- Python `round(q)` : round half to even. -/
def bankersRound (q : ℚ) : ℤ :=
  if q - ⌊q⌋ < 1/2 then ⌊q⌋
  else if (1 : ℚ)/2 < q - ⌊q⌋ then ⌊q⌋ + 1
  else if Even ⌊q⌋ then ⌊q⌋ else ⌊q⌋ + 1

/-- Python `round(q, 4)`. -/
def round4 (q : ℚ) : ℚ := (bankersRound (q * 10000) : ℚ) / 10000

/-- `Triangulator.select_engines`: run the greedy loop from an empty
selection and report the rounded overall coverage ratio. -/
def selectEngines (g : List (String × List String)) (ranked : List REntry)
    (target : Finset String) (maxK : ℕ) (threshold : ℚ) : SelectResult :=
  let res := selectLoop g ranked target threshold maxK [] ∅ target
  { selected := res.1,
    coveredCount := res.2.card,
    coverageRatio := round4 (ratioQ target res.2) }

/-- C5: for a non-empty target, every entry reported by
`rank_entrypoints` carries `cover_nodes = |reachable(c) ∩ target|` and
`cover_ratio = |reachable(c) ∩ target| / |target|` exactly, and every
candidate is reported. -/
theorem rank_coverage_spec (g : List (String × List String))
    (cands : List String) (target : Finset String) (scopes : List String)
    (ht : target ≠ ∅) :
    (∀ e ∈ rankEntrypoints g cands target scopes,
      e.coverNodes = (reachF g e.path ∩ target).card ∧
      e.coverRatio = ((reachF g e.path ∩ target).card : ℚ) / (target.card : ℚ)) ∧
    (∀ c ∈ cands, ∃ e ∈ rankEntrypoints g cands target scopes, e.path = c) := by
  constructor
  · intro e he
    rw [rankEntrypoints, if_neg ht, List.mem_mergeSort] at he
    obtain ⟨c, _, rfl⟩ := List.mem_map.mp he
    exact ⟨rfl, rfl⟩
  · intro c hc
    rw [rankEntrypoints, if_neg ht]
    exact ⟨_, List.mem_mergeSort.mpr (List.mem_map.mpr ⟨c, hc, rfl⟩), rfl⟩

/-- Witness for C5 on a one-edge graph with target `{"a", "b"}`. -/
theorem rank_coverage_spec_witness :
    (∀ e ∈ rankEntrypoints [("a", ["b"])] ["a"] {"a", "b"} [],
      e.coverNodes = (reachF [("a", ["b"])] e.path ∩ {"a", "b"}).card ∧
      e.coverRatio = ((reachF [("a", ["b"])] e.path ∩ {"a", "b"}).card : ℚ) /
        (({"a", "b"} : Finset String).card : ℚ)) ∧
    (∀ c ∈ ["a"], ∃ e ∈ rankEntrypoints [("a", ["b"])] ["a"] {"a", "b"} [],
      e.path = c) :=
  rank_coverage_spec [("a", ["b"])] ["a"] {"a", "b"} [] (by decide)

/-- C3 counterexample: with scopes restricted to `["s"]`, the candidate
`"x"` is ranked out of scope (`in_engine_scope = False`), yet
`select_engines` selects it: the selection loop never consults the
in-scope flag. -/
theorem selectEngines_picks_out_of_scope :
    (selectEngines [] (rankEntrypoints [] ["x"] {"x"} ["s"]) {"x"} 1
      (95/100)).selected.map (fun e => e.inScope) = [false] := by
  have hr : reachF [] "x" = {"x"} := by simp [reachF, bfsAux, adjOf]
  have hrank : rankEntrypoints [] ["x"] {"x"} ["s"] = [⟨"x", 1, 1, false⟩] := by
    rw [rankEntrypoints, if_neg (by decide)]
    simp [hr]
    decide
  rw [hrank]
  simp [selectEngines, selectLoop, bestOf, bestStep, mGain, hr, ratioQ]

/-- The paths of the already-selected entries
(`any(s["path"] == path for s in selected)`). -/
def pathsOf (sel : List REntry) : List String := sel.map (fun e => e.path)

/-- The remaining uncovered target after a sequence of picks
(`remaining_target -= reachable` per pick). -/
def remAfter (g : List (String × List String)) (target : Finset String)
    (sel : List REntry) : Finset String :=
  sel.foldl (fun r e => r \ reachF g e.path) target

theorem remAfter_append (g : List (String × List String))
    (target : Finset String) (sel : List REntry) (e : REntry) :
    remAfter g target (sel ++ [e]) = remAfter g target sel \ reachF g e.path := by
  simp [remAfter, List.foldl_append]

theorem cov_update (target rem reach : Finset String) :
    (target \ rem) ∪ (reach ∩ target) = target \ (rem \ reach) := by
  ext x
  simp only [Finset.mem_union, Finset.mem_sdiff, Finset.mem_inter]
  tauto

theorem bestFold_acc (g : List (String × List String)) (rem : Finset String)
    (chosen : List String) :
    ∀ (l : List REntry) (acc : Option REntry × ℕ),
      acc.2 ≤ (l.foldl (bestStep g rem chosen) acc).2 ∧
      (∀ x ∈ l, x.path ∉ chosen →
        mGain g rem x.path ≤ (l.foldl (bestStep g rem chosen) acc).2) := by
  intro l
  induction l with
  | nil =>
    intro acc
    exact ⟨le_refl _, by simp⟩
  | cons e rest ih =>
    intro acc
    constructor
    · refine le_trans ?_ (ih (bestStep g rem chosen acc e)).1
      unfold bestStep
      split
      · exact le_refl _
      · split
        · rename_i hlt
          exact le_of_lt hlt
        · exact le_refl _
    · intro x hx hxc
      rcases List.mem_cons.mp hx with rfl | hx
      · refine le_trans ?_ (ih (bestStep g rem chosen acc x)).1
        unfold bestStep
        rw [if_neg hxc]
        split
        · exact le_refl _
        · rename_i hnlt
          exact le_of_not_lt hnlt
      · exact (ih _).2 x hx hxc

theorem bestFold_inv (g : List (String × List String)) (rem : Finset String)
    (chosen : List String) :
    ∀ (l : List REntry) (acc : Option REntry × ℕ),
      (acc.1 = none → acc.2 = 0) →
      (∀ e, acc.1 = some e →
        acc.2 = mGain g rem e.path ∧ e.path ∉ chosen ∧ 0 < acc.2) →
      ((l.foldl (bestStep g rem chosen) acc).1 = none →
        (l.foldl (bestStep g rem chosen) acc).2 = 0) ∧
      (∀ e, (l.foldl (bestStep g rem chosen) acc).1 = some e →
        (l.foldl (bestStep g rem chosen) acc).2 = mGain g rem e.path ∧
        e.path ∉ chosen ∧ 0 < (l.foldl (bestStep g rem chosen) acc).2) ∧
      ((l.foldl (bestStep g rem chosen) acc).1 = acc.1 ∨
        ∃ e ∈ l, (l.foldl (bestStep g rem chosen) acc).1 = some e) := by
  intro l
  induction l with
  | nil =>
    intro acc h1 h2
    exact ⟨h1, h2, Or.inl rfl⟩
  | cons e rest ih =>
    intro acc h1 h2
    have hstep : bestStep g rem chosen acc e = acc ∨
        (bestStep g rem chosen acc e = (some e, mGain g rem e.path) ∧
         e.path ∉ chosen ∧ 0 < mGain g rem e.path) := by
      unfold bestStep
      split
      · exact Or.inl rfl
      · split
        · rename_i hc hlt
          exact Or.inr ⟨rfl, hc, Nat.lt_of_le_of_lt (Nat.zero_le _) hlt⟩
        · exact Or.inl rfl
    have hstep1 : (bestStep g rem chosen acc e).1 = none →
        (bestStep g rem chosen acc e).2 = 0 := by
      intro hn
      rcases hstep with h | h
      · rw [h] at hn ⊢
        exact h1 hn
      · rw [h.1] at hn
        simp at hn
    have hstep2 : ∀ e2, (bestStep g rem chosen acc e).1 = some e2 →
        (bestStep g rem chosen acc e).2 = mGain g rem e2.path ∧
        e2.path ∉ chosen ∧ 0 < (bestStep g rem chosen acc e).2 := by
      intro e2 hs
      rcases hstep with h | h
      · rw [h] at hs ⊢
        exact h2 e2 hs
      · rw [h.1] at hs ⊢
        simp only [Option.some.injEq] at hs
        subst hs
        exact ⟨rfl, h.2.1, h.2.2⟩
    have hres := ih (bestStep g rem chosen acc e) hstep1 hstep2
    simp only [List.foldl_cons]
    refine ⟨hres.1, hres.2.1, ?_⟩
    rcases hres.2.2 with h | h
    · rcases hstep with hh | hh
      · exact Or.inl (by rw [h, hh])
      · exact Or.inr ⟨e, by simp, by rw [h, hh.1]⟩
    · obtain ⟨x, hx, hxe⟩ := h
      exact Or.inr ⟨x, by simp [hx], hxe⟩

theorem bestOf_eq_some {g : List (String × List String)}
    {rem : Finset String} {chosen : List String} {ranked : List REntry}
    {e : REntry} (h : bestOf g rem chosen ranked = some e) :
    e ∈ ranked ∧ e.path ∉ chosen ∧ 0 < mGain g rem e.path ∧
    ∀ x ∈ ranked, x.path ∉ chosen →
      mGain g rem x.path ≤ mGain g rem e.path := by
  have hinv := bestFold_inv g rem chosen ranked (none, 0)
    (fun _ => rfl) (fun e2 h2 => by simp at h2)
  have hacc := bestFold_acc g rem chosen ranked (none, 0)
  unfold bestOf at h
  have hsome := hinv.2.1 e h
  have hmem : e ∈ ranked := by
    rcases hinv.2.2 with hh | hh
    · rw [h] at hh
      simp at hh
    · obtain ⟨x, hx, hxe⟩ := hh
      rw [h] at hxe
      simp only [Option.some.injEq] at hxe
      exact hxe ▸ hx
  refine ⟨hmem, hsome.2.1, hsome.1 ▸ hsome.2.2, ?_⟩
  intro x hx hxc
  have := hacc.2 x hx hxc
  rw [hsome.1] at this
  exact this

theorem bestOf_eq_none {g : List (String × List String)}
    {rem : Finset String} {chosen : List String} {ranked : List REntry}
    (h : bestOf g rem chosen ranked = none) :
    ∀ x ∈ ranked, x.path ∉ chosen → mGain g rem x.path = 0 := by
  have hinv := bestFold_inv g rem chosen ranked (none, 0)
    (fun _ => rfl) (fun e2 h2 => by simp at h2)
  have hacc := bestFold_acc g rem chosen ranked (none, 0)
  unfold bestOf at h
  intro x hx hxc
  have hle := hacc.2 x hx hxc
  rw [hinv.1 h] at hle
  exact Nat.le_zero.mp hle

/-- The conditions under which the `i`-th pick of the greedy selection is
made: the pick is a ranked, not-yet-chosen candidate of maximal and
positive marginal gain against the remaining uncovered target, the
remaining target is non-empty, and (for every pick after the first) the
cumulative coverage ratio is still below the threshold. -/
def PickAt (g : List (String × List String)) (ranked : List REntry)
    (target : Finset String) (θ : ℚ) (L : List REntry) (i : ℕ) : Prop :=
  ∀ h : i < L.length,
    L.get ⟨i, h⟩ ∈ ranked ∧
    (L.get ⟨i, h⟩).path ∉ pathsOf (L.take i) ∧
    0 < mGain g (remAfter g target (L.take i)) (L.get ⟨i, h⟩).path ∧
    (∀ x ∈ ranked, x.path ∉ pathsOf (L.take i) →
      mGain g (remAfter g target (L.take i)) x.path ≤
        mGain g (remAfter g target (L.take i)) (L.get ⟨i, h⟩).path) ∧
    remAfter g target (L.take i) ≠ ∅ ∧
    (0 < i → ratioQ target (target \ remAfter g target (L.take i)) < θ)

/-- Why the greedy selection stopped: `max_k` picks made, remaining
target empty, coverage threshold reached, or no remaining positive
marginal gain. -/
def StopCause (g : List (String × List String)) (ranked : List REntry)
    (target : Finset String) (θ : ℚ) (L : List REntry) (maxLen : ℕ) : Prop :=
  L.length = maxLen ∨ remAfter g target L = ∅ ∨
  θ ≤ ratioQ target (target \ remAfter g target L) ∨
  (∀ x ∈ ranked, x.path ∉ pathsOf L → mGain g (remAfter g target L) x.path = 0)

theorem pickAt_of (g : List (String × List String)) (ranked : List REntry)
    (target : Finset String) (θ : ℚ) (sel : List REntry) (best : REntry)
    (tail : List REntry)
    (hbmem : best ∈ ranked)
    (hbnotin : best.path ∉ pathsOf sel)
    (hbgain : 0 < mGain g (remAfter g target sel) best.path)
    (hbmax : ∀ x ∈ ranked, x.path ∉ pathsOf sel →
      mGain g (remAfter g target sel) x.path ≤
        mGain g (remAfter g target sel) best.path)
    (hne : remAfter g target sel ≠ ∅)
    (hθ : 0 < sel.length →
      ratioQ target (target \ remAfter g target sel) < θ) :
    PickAt g ranked target θ (sel ++ best :: tail) sel.length := by
  intro h
  have htake : (sel ++ best :: tail).take sel.length = sel :=
    List.take_left sel (best :: tail)
  have hget : (sel ++ best :: tail).get ⟨sel.length, h⟩ = best := by
    rw [List.get_eq_getElem, List.getElem_append_right (le_refl _)]
    simp
  rw [htake, hget]
  exact ⟨hbmem, hbnotin, hbgain, hbmax, hne, hθ⟩

theorem selectLoop_char (g : List (String × List String))
    (ranked : List REntry) (target : Finset String) (θ : ℚ) :
    ∀ (fuel : ℕ) (sel : List REntry) (cov rem : Finset String),
      rem = remAfter g target sel →
      cov = target \ rem →
      (sel ≠ [] → ratioQ target cov < θ) →
      ∃ ext : List REntry,
        (selectLoop g ranked target θ fuel sel cov rem).1 = sel ++ ext ∧
        ext.length ≤ fuel ∧
        (selectLoop g ranked target θ fuel sel cov rem).2 =
          target \ remAfter g target (sel ++ ext) ∧
        (∀ i, sel.length ≤ i →
          PickAt g ranked target θ (sel ++ ext) i) ∧
        StopCause g ranked target θ (sel ++ ext) (sel.length + fuel) := by
  intro fuel
  induction fuel with
  | zero =>
    intro sel cov rem hrem hcov _
    refine ⟨[], by simp [selectLoop], by simp, ?_, ?_, Or.inl (by simp)⟩
    · simp only [selectLoop, List.append_nil]
      rw [hcov, hrem]
    · intro i hi h
      rw [List.append_nil] at h
      omega
  | succ k ih =>
    intro sel cov rem hrem hcov hθ
    by_cases hempty : rem = ∅
    · have hres : selectLoop g ranked target θ (k + 1) sel cov rem =
          (sel, cov) := by
        rw [selectLoop, if_pos hempty]
      refine ⟨[], by rw [hres]; simp, by simp, ?_, ?_, Or.inr (Or.inl ?_)⟩
      · rw [hres, List.append_nil, hcov, hrem]
      · intro i hi h
        rw [List.append_nil] at h
        omega
      · rw [List.append_nil, ← hrem]
        exact hempty
    · cases hbest : bestOf g rem (sel.map (fun s => s.path)) ranked with
      | none =>
        have hres : selectLoop g ranked target θ (k + 1) sel cov rem =
            (sel, cov) := by
          rw [selectLoop, if_neg hempty, hbest]
        refine ⟨[], by rw [hres]; simp, by simp, ?_, ?_,
          Or.inr (Or.inr (Or.inr ?_))⟩
        · rw [hres, List.append_nil, hcov, hrem]
        · intro i hi h
          rw [List.append_nil] at h
          omega
        · rw [List.append_nil, ← hrem]
          exact bestOf_eq_none hbest
      | some best =>
        obtain ⟨hbmem, hbnotin, hbgain, hbmax⟩ := bestOf_eq_some hbest
        have hrem' : rem \ reachF g best.path =
            remAfter g target (sel ++ [best]) := by
          rw [remAfter_append, ← hrem]
        have hcov' : cov ∪ (reachF g best.path ∩ target) =
            target \ remAfter g target (sel ++ [best]) := by
          rw [hcov, cov_update, hrem']
        have hθ0 : 0 < sel.length →
            ratioQ target (target \ remAfter g target sel) < θ := by
          intro hpos
          have := hθ (by intro hnil; rw [hnil] at hpos; simp at hpos)
          rw [hcov, hrem] at this
          exact this
        by_cases hthr : θ ≤ ratioQ target (cov ∪ (reachF g best.path ∩ target))
        · have hres : selectLoop g ranked target θ (k + 1) sel cov rem =
              (sel ++ [best], cov ∪ (reachF g best.path ∩ target)) := by
            rw [selectLoop, if_neg hempty, hbest]
            exact if_pos hthr
          refine ⟨[best], by rw [hres], by simp, ?_, ?_,
            Or.inr (Or.inr (Or.inl ?_))⟩
          · rw [hres, hcov']
          · intro i hi
            rcases Nat.eq_or_lt_of_le hi with rfl | hlt
            · exact pickAt_of g ranked target θ sel best [] hbmem
                hbnotin (hrem ▸ hbgain)
                (by rw [← hrem]; exact hbmax) (by rw [← hrem]; exact hempty)
                hθ0
            · intro h
              rw [List.length_append, List.length_singleton] at h
              omega
          · rw [← hcov']
            exact hthr
        · have hres : selectLoop g ranked target θ (k + 1) sel cov rem =
              selectLoop g ranked target θ k (sel ++ [best])
                (cov ∪ (reachF g best.path ∩ target))
                (rem \ reachF g best.path) := by
            rw [selectLoop, if_neg hempty, hbest]
            exact if_neg hthr
          obtain ⟨ext', hres1', hlen', hres2', hpicks', hstop'⟩ :=
            ih (sel ++ [best]) (cov ∪ (reachF g best.path ∩ target))
              (rem \ reachF g best.path) hrem' (by rw [hcov', hrem'])
              (fun _ => by
                rw [hcov']
                rw [hcov'] at hthr
                exact lt_of_not_le hthr)
          have hL : (sel ++ [best]) ++ ext' = sel ++ best :: ext' := by simp
          rw [hL] at hres1' hres2' hpicks' hstop'
          refine ⟨best :: ext', by rw [hres, hres1'], by
            simpa using Nat.succ_le_succ hlen', by rw [hres, hres2'], ?_, ?_⟩
          · intro i hi
            rcases Nat.eq_or_lt_of_le hi with rfl | hlt
            · exact pickAt_of g ranked target θ sel best ext' hbmem
                hbnotin (hrem ▸ hbgain)
                (by rw [← hrem]; exact hbmax) (by rw [← hrem]; exact hempty)
                hθ0
            · refine hpicks' i ?_
              rw [List.length_append, List.length_singleton]
              omega
          · have hlen : (sel ++ [best]).length + k = sel.length + (k + 1) := by
              rw [List.length_append, List.length_singleton]
              omega
            rw [hlen] at hstop'
            exact hstop'

/-- The selection list returned by `select_engines`. -/
def selSelected (g : List (String × List String)) (ranked : List REntry)
    (target : Finset String) (maxK : ℕ) (θ : ℚ) : List REntry :=
  (selectEngines g ranked target maxK θ).selected

/-- C3 (amended): `select_engines` repeatedly picks the not-yet-chosen
candidate with the largest (positive) marginal gain — ignoring the
in-scope flag — and stops exactly when `max_k` picks have been made, the
remaining target is empty, the best marginal gain is zero, or the
cumulative coverage ratio reaches `coverage_threshold`. -/
theorem selectEngines_greedy_spec (g : List (String × List String))
    (ranked : List REntry) (target : Finset String) (maxK : ℕ) (θ : ℚ) :
    (selSelected g ranked target maxK θ).length ≤ maxK ∧
    (∀ i, PickAt g ranked target θ (selSelected g ranked target maxK θ) i) ∧
    StopCause g ranked target θ (selSelected g ranked target maxK θ) maxK ∧
    (selectEngines g ranked target maxK θ).coverageRatio =
      round4 (ratioQ target
        (target \ remAfter g target (selSelected g ranked target maxK θ))) := by
  obtain ⟨ext, h1, h2, h3, h4, h5⟩ :=
    selectLoop_char g ranked target θ maxK [] ∅ target rfl (by simp) (by simp)
  have hsel : selSelected g ranked target maxK θ = ext := by
    rw [selSelected]
    show (selectLoop g ranked target θ maxK [] ∅ target).1 = ext
    rw [h1, List.nil_append]
  rw [List.nil_append] at h3 h4 h5
  refine ⟨?_, ?_, ?_, ?_⟩
  · rw [hsel]
    exact h2
  · intro i
    rw [hsel]
    exact h4 i (Nat.zero_le i)
  · rw [hsel]
    simpa using h5
  · rw [hsel]
    show round4 (ratioQ target (selectLoop g ranked target θ maxK [] ∅
      target).2) = _
    rw [h3]

/-- The concrete greedy run of the C3 witness selects one entry. -/
theorem selC3_len :
    0 < (selSelected [] (rankEntrypoints [] ["x"] {"x"} ["s"]) {"x"} 1
      (95/100)).length := by
  have hr : reachF [] "x" = {"x"} := by simp [reachF, bfsAux, adjOf]
  have hrank : rankEntrypoints [] ["x"] {"x"} ["s"] = [⟨"x", 1, 1, false⟩] := by
    rw [rankEntrypoints, if_neg (by decide)]
    simp [hr]
    decide
  rw [hrank]
  simp [selSelected, selectEngines, selectLoop, bestOf, bestStep, mGain, hr,
    ratioQ]

/-- Witness for the amended C3 on a concrete run: the first pick is a
ranked candidate made while the remaining target was non-empty. -/
theorem selectEngines_greedy_spec_witness :
    (selSelected [] (rankEntrypoints [] ["x"] {"x"} ["s"]) {"x"} 1
        (95/100)).get ⟨0, selC3_len⟩ ∈
      rankEntrypoints [] ["x"] {"x"} ["s"] ∧
    remAfter [] {"x"} ((selSelected [] (rankEntrypoints [] ["x"] {"x"} ["s"])
      {"x"} 1 (95/100)).take 0) ≠ ∅ := by
  have h := (selectEngines_greedy_spec [] (rankEntrypoints [] ["x"] {"x"} ["s"])
    {"x"} 1 (95/100)).2.1 0 selC3_len
  exact ⟨h.1, h.2.2.2.2.1⟩

theorem cov_subset_selectLoop (g : List (String × List String))
    (ranked : List REntry) (target : Finset String) (θ : ℚ) :
    ∀ (k : ℕ) (sel : List REntry) (cov rem : Finset String),
      cov ⊆ (selectLoop g ranked target θ k sel cov rem).2 := by
  intro k
  induction k with
  | zero =>
    intro sel cov rem
    rw [selectLoop]
  | succ k ih =>
    intro sel cov rem
    rw [selectLoop]
    split
    · exact subset_rfl
    · split
      · exact subset_rfl
      · split
        · exact Finset.subset_union_left
        · exact subset_trans Finset.subset_union_left (ih _ _ _)

theorem selectLoop_covered_mono (g : List (String × List String))
    (ranked : List REntry) (target : Finset String) (θ : ℚ) :
    ∀ (k : ℕ) (sel : List REntry) (cov rem : Finset String),
      (selectLoop g ranked target θ k sel cov rem).2 ⊆
      (selectLoop g ranked target θ (k + 1) sel cov rem).2 := by
  intro k
  induction k with
  | zero =>
    intro sel cov rem
    have : (selectLoop g ranked target θ 0 sel cov rem).2 = cov := by
      rw [selectLoop]
    rw [this]
    exact cov_subset_selectLoop g ranked target θ 1 sel cov rem
  | succ k ih =>
    intro sel cov rem
    conv_lhs => rw [selectLoop]
    conv_rhs => rw [selectLoop]
    split
    · exact subset_rfl
    · split
      · exact subset_rfl
      · split
        · exact subset_rfl
        · exact ih _ _ _

theorem selectLoop_covered_le (g : List (String × List String))
    (ranked : List REntry) (target : Finset String) (θ : ℚ) {k k' : ℕ}
    (h : k ≤ k') :
    ∀ (sel : List REntry) (cov rem : Finset String),
      (selectLoop g ranked target θ k sel cov rem).2 ⊆
      (selectLoop g ranked target θ k' sel cov rem).2 := by
  induction h with
  | refl =>
    intro sel cov rem
    exact subset_rfl
  | step _ ih =>
    intro sel cov rem
    exact subset_trans (ih sel cov rem)
      (selectLoop_covered_mono g ranked target θ _ sel cov rem)

theorem bankersRound_mono {x y : ℚ} (h : x ≤ y) :
    bankersRound x ≤ bankersRound y := by
  have hf : (⌊x⌋ : ℤ) ≤ ⌊y⌋ := Int.floor_le_floor h
  rcases eq_or_lt_of_le hf with heq | hlt
  · have hxy : x - (⌊x⌋ : ℚ) ≤ y - (⌊y⌋ : ℚ) := by
      have : ((⌊x⌋ : ℤ) : ℚ) = ((⌊y⌋ : ℤ) : ℚ) := by exact_mod_cast heq
      linarith
    unfold bankersRound
    rw [← heq]
    split_ifs <;> first | omega | linarith
  · have h1 : bankersRound x ≤ ⌊x⌋ + 1 := by
      unfold bankersRound
      split_ifs <;> omega
    have h2 : (⌊y⌋ : ℤ) ≤ bankersRound y := by
      unfold bankersRound
      split_ifs <;> omega
    omega

theorem round4_mono {x y : ℚ} (h : x ≤ y) : round4 x ≤ round4 y := by
  unfold round4
  have h1 : bankersRound (x * 10000) ≤ bankersRound (y * 10000) :=
    bankersRound_mono (by linarith)
  have h2 : ((bankersRound (x * 10000) : ℤ) : ℚ) ≤
      ((bankersRound (y * 10000) : ℤ) : ℚ) := by exact_mod_cast h1
  linarith

theorem ratioQ_mono {target c₁ c₂ : Finset String} (h : c₁ ⊆ c₂) :
    ratioQ target c₁ ≤ ratioQ target c₂ := by
  unfold ratioQ
  split
  · exact le_refl _
  · rename_i ht
    have hc : 0 < (target.card : ℚ) := by
      exact_mod_cast Finset.card_pos.mpr (Finset.nonempty_of_ne_empty ht)
    rw [div_le_div_iff_of_pos_right hc]
    exact_mod_cast Finset.card_le_card h

/-- C6: holding the ranked list and the target fixed, the
`coverage_ratio` returned by `select_engines` is monotonically
non-decreasing in `max_k`. -/
theorem selectEngines_ratio_mono (g : List (String × List String))
    (ranked : List REntry) (target : Finset String) (θ : ℚ) {k k' : ℕ}
    (h : k ≤ k') :
    (selectEngines g ranked target k θ).coverageRatio ≤
    (selectEngines g ranked target k' θ).coverageRatio := by
  show round4 (ratioQ target (selectLoop g ranked target θ k [] ∅ target).2) ≤
    round4 (ratioQ target (selectLoop g ranked target θ k' [] ∅ target).2)
  exact round4_mono (ratioQ_mono
    (selectLoop_covered_le g ranked target θ h [] ∅ target))

/-- Witness for C6 at `max_k = 0 ≤ 1` on a concrete input. -/
theorem selectEngines_ratio_mono_witness :
    (selectEngines [] [] ({"a"} : Finset String) 0 (95/100)).coverageRatio ≤
    (selectEngines [] [] ({"a"} : Finset String) 1 (95/100)).coverageRatio :=
  selectEngines_ratio_mono [] [] {"a"} (95/100) (by decide)

/-- One move record of the transaction ledger.  The absolute `src`/`dst`
fields of the source are derived from the repo-relative path and the
tier, so the model keeps `(rel, tier)`. -/
structure LedgerEntry where
  rel : String
  tier : String
deriving DecidableEq

/-- The file-system state visible to `apply`/`restore`: the repo-relative
paths present in the repository, the paths without write permission, the
`(tier, path)` pairs present under the quarantine directory, the
persisted ledger file (`none` = missing or unreadable, loaded as empty
by `_load_ledger`), and the temporary file written by `_save_ledger`.
Directory structure is not modelled (the `mkdir`/empty-directory-cleanup
steps do not affect the file sets). -/
structure FSState where
  repo : Finset String
  ro : Finset String
  quar : Finset (String × String)
  ledgerFile : Option (List LedgerEntry)
  tmp : Option (List LedgerEntry)
deriving DecidableEq

/-- `QuarantineEngine._load_ledger`: a missing or unreadable ledger file
loads as the empty move list. -/
def loadLedger (st : FSState) : List LedgerEntry := st.ledgerFile.getD []

/-- First half of `_save_ledger`: write the new ledger to the `.tmp`
file. -/
def writeTmp (st : FSState) (L : List LedgerEntry) : FSState :=
  { st with tmp := some L }

/-- Second half of `_save_ledger`: rename the `.tmp` file over the
ledger file. -/
def renameTmp (st : FSState) : FSState :=
  match st.tmp with
  | some L => { st with tmp := none, ledgerFile := some L }
  | none => st

/-- `QuarantineEngine._save_ledger`: write-to-temporary-file then
rename. -/
def saveLedger (st : FSState) (L : List LedgerEntry) : FSState :=
  renameTmp (writeTmp st L)

/-- The outcome of one file of the `apply` loop. -/
inductive StepOut where
  | mov (entry : LedgerEntry)
  | skp
  | err (rel reason : String)
deriving DecidableEq

/-- Observable events of an `apply` batch. -/
inductive FSEvent where
  | moved (rel tier : String)
  | skippedEvt (rel : String)
  | erroredEvt (rel reason : String)
  | persisted
deriving DecidableEq

/-- One file of the `apply` loop: missing source → skipped; no write
permission → per-file error; destination already present → per-file
error; otherwise move the file and record a ledger entry. -/
def applyStep (st : FSState) (p t : String) : FSState × StepOut :=
  if p ∉ st.repo then (st, .skp)
  else if p ∈ st.ro then (st, .err p "Permission denied")
  else if (t, p) ∈ st.quar then (st, .err p "Destination exists")
  else ({ st with repo := st.repo.erase p, quar := insert (t, p) st.quar },
    .mov ⟨p, t⟩)

/-- The event recorded for one processed file. -/
def eventOf (p : String) : StepOut → FSEvent
  | .mov e => .moved e.rel e.tier
  | .skp => .skippedEvt p
  | .err q reason => .erroredEvt q reason

/-- Accumulated results of the `apply` loop. -/
structure ApplyOut where
  state : FSState
  moved : List String
  skippedCount : ℕ
  errors : List (String × String)
  entries : List LedgerEntry
  trace : List FSEvent
deriving DecidableEq

/-- The per-file loop of `apply`: every file of the batch is processed,
no per-file failure aborts the loop. -/
def applyFold : FSState → List (String × String) → ApplyOut
  | st, [] => ⟨st, [], 0, [], [], []⟩
  | st, pt :: rest =>
    match applyStep st pt.1 pt.2 with
    | (st', StepOut.mov e) =>
      let r := applyFold st' rest
      { r with moved := e.rel :: r.moved, entries := e :: r.entries,
               trace := eventOf pt.1 (StepOut.mov e) :: r.trace }
    | (st', StepOut.skp) =>
      let r := applyFold st' rest
      { r with skippedCount := r.skippedCount + 1,
               trace := eventOf pt.1 StepOut.skp :: r.trace }
    | (st', StepOut.err q reason) =>
      let r := applyFold st' rest
      { r with errors := (q, reason) :: r.errors,
               trace := eventOf pt.1 (StepOut.err q reason) :: r.trace }

/-- `str.lower()`. -/
def strLower (s : String) : String := String.mk (s.data.map Char.toLower)

/-- The `tier_map` normalization of a requested tier name; names that do
not normalize to `t1`/`t2`/`t3` are dropped. -/
def normTier (t : String) : Option String :=
  if strLower t = "tier1" ∨ strLower t = "t1" then some "t1"
  else if strLower t = "tier2" ∨ strLower t = "t2" then some "t2"
  else if strLower t = "tier3" ∨ strLower t = "t3" then some "t3"
  else none

/-- The movable tier lists of a quarantine plan
(`t1_periphery` / `t2_shadow` / `t3_ghost` file paths). -/
structure MovePlan where
  t1 : List String
  t2 : List String
  t3 : List String
deriving DecidableEq

/-- `tier_key_map` lookup. -/
def planPaths (plan : MovePlan) : String → List String
  | "t1" => plan.t1
  | "t2" => plan.t2
  | "t3" => plan.t3
  | _ => []

/-- The `files_to_move` collection of `apply`: per normalized tier, the
paths of the plan with falsy (empty) paths dropped, paired with the tier. -/
def filesToMove (plan : MovePlan) (tiers : List String) :
    List (String × String) :=
  (tiers.filterMap normTier).flatMap
    (fun t => ((planPaths plan t).filter (fun p => p ≠ "")).map (fun p => (p, t)))

/-- The structured result of `apply`. -/
structure ApplyResult where
  state : FSState
  moved : List String
  skippedCount : ℕ
  errors : List (String × String)
  entries : List LedgerEntry
  trace : List FSEvent
  err : Option String
deriving DecidableEq

/-- `QuarantineEngine.apply` (non-dry-run path): normalize the requested
tiers (returning a structured error when none are valid), collect the
files, load the ledger, run the per-file loop, and persist the ledger
exactly once at the end of the batch. -/
def applyQ (st : FSState) (plan : MovePlan) (tiers : List String) :
    ApplyResult :=
  if tiers.filterMap normTier = [] then
    { state := st, moved := [], skippedCount := 0, errors := [],
      entries := [], trace := [], err := some "No valid tiers specified" }
  else
    let r := applyFold st (filesToMove plan tiers)
    { state := saveLedger r.state (loadLedger st ++ r.entries),
      moved := r.moved, skippedCount := r.skippedCount, errors := r.errors,
      entries := r.entries, trace := r.trace ++ [.persisted], err := none }

/-- `moves[-count:] if count else moves`: the Python falsy zero selects the
whole list. -/
def selectToRestore (moves : List LedgerEntry) : Option ℕ → List LedgerEntry
  | none => moves
  | some c => if c = 0 then moves else moves.drop (moves.length - c)

/-- Python `list.remove`: drop the first equal element, no change when
absent (the code guards with `if entry in ledger["moves"]`). -/
def removeFirst {α : Type} [DecidableEq α] : List α → α → List α
  | [], _ => []
  | x :: xs, a => if x = a then xs else x :: removeFirst xs a

/-- Accumulator of the restore loop. -/
structure RestoreAcc where
  state : FSState
  ledger : List LedgerEntry
  restored : List String
  errors : List (String × String)
deriving DecidableEq

/-- One ledger entry of the restore loop: a missing quarantine file is a
recorded error (entry kept); otherwise the file moves back to its source
path and the entry is removed from the in-memory ledger. -/
def restoreStep (acc : RestoreAcc) (e : LedgerEntry) : RestoreAcc :=
  if (e.tier, e.rel) ∉ acc.state.quar then
    { acc with errors := acc.errors ++ [(e.rel, "Not in quarantine")] }
  else
    { state := { acc.state with
        quar := acc.state.quar.erase (e.tier, e.rel),
        repo := insert e.rel acc.state.repo },
      ledger := removeFirst acc.ledger e,
      restored := acc.restored ++ [e.rel],
      errors := acc.errors }

/-- The structured result of `restore`. -/
structure RestoreResult where
  state : FSState
  restored : List String
  errors : List (String × String)
  remaining : ℕ
  emptyLedger : Bool
deriving DecidableEq

/-- `QuarantineEngine.restore`: read the ledger (empty → structured
early return, nothing persisted), take the selected entries most recent
first, move each back, and re-persist the ledger once. -/
def restoreQ (st : FSState) (count : Option ℕ) : RestoreResult :=
  if loadLedger st = [] then
    { state := st, restored := [], errors := [], remaining := 0,
      emptyLedger := true }
  else
    let acc := ((selectToRestore (loadLedger st) count).reverse).foldl
      restoreStep ⟨st, loadLedger st, [], []⟩
    { state := saveLedger acc.state acc.ledger,
      restored := acc.restored, errors := acc.errors,
      remaining := acc.ledger.length, emptyLedger := false }

/-- C10: `restore(count=0)` selects the whole ledger (Python falsy zero)
and behaves identically to `restore()` with no count, rather than
restoring zero entries. -/
theorem restore_zero_restores_all (st : FSState) :
    restoreQ st (some 0) = restoreQ st none ∧
    selectToRestore (loadLedger st) (some 0) = loadLedger st :=
  ⟨rfl, rfl⟩

theorem eventOf_ne_persisted (p : String) (o : StepOut) :
    eventOf p o ≠ FSEvent.persisted := by
  cases o <;> simp [eventOf]

theorem applyFold_counts :
    ∀ (files : List (String × String)) (st : FSState),
      (applyFold st files).moved.length + (applyFold st files).skippedCount +
        (applyFold st files).errors.length = files.length ∧
      (applyFold st files).entries.map (fun e => e.rel) =
        (applyFold st files).moved ∧
      (applyFold st files).trace.count FSEvent.persisted = 0 := by
  intro files
  induction files with
  | nil =>
    intro st
    simp [applyFold]
  | cons pt rest ih =>
    intro st
    rw [applyFold]
    rcases happ : applyStep st pt.1 pt.2 with ⟨st', out⟩
    cases out with
    | mov e =>
      have h := ih st'
      refine ⟨by simp; omega, by simp [h.2.1], by simp [eventOf, h.2.2]⟩
    | skp =>
      have h := ih st'
      refine ⟨by simp; omega, by simp [h.2.1], by simp [eventOf, h.2.2]⟩
    | err q reason =>
      have h := ih st'
      refine ⟨by simp; omega, by simp [h.2.1], by simp [eventOf, h.2.2]⟩

/-- C7: during `apply` over requested tiers, a missing source counts as
skipped (not an error); an existing destination or a non-writable source
is a per-file error; no per-file failure aborts the batch (every file of
the batch is accounted for); one ledger entry is appended per successful
move; and the full ledger is persisted exactly once per batch, as the
last action, through the write-temporary-then-rename of `_save_ledger`
(which leaves no temporary file behind). -/
theorem applyQ_spec (st : FSState) (plan : MovePlan) (tiers : List String)
    (hv : tiers.filterMap normTier ≠ []) :
    (applyQ st plan tiers).moved.length + (applyQ st plan tiers).skippedCount +
      (applyQ st plan tiers).errors.length = (filesToMove plan tiers).length ∧
    (applyQ st plan tiers).trace.count FSEvent.persisted = 1 ∧
    (applyQ st plan tiers).trace.getLast? = some FSEvent.persisted ∧
    (applyQ st plan tiers).state.ledgerFile =
      some (loadLedger st ++ (applyQ st plan tiers).entries) ∧
    (applyQ st plan tiers).entries.map (fun e => e.rel) =
      (applyQ st plan tiers).moved ∧
    (applyQ st plan tiers).state.tmp = none ∧
    (∀ s p t, p ∉ s.repo → applyStep s p t = (s, .skp)) ∧
    (∀ s p t, p ∈ s.repo → p ∈ s.ro →
      applyStep s p t = (s, .err p "Permission denied")) ∧
    (∀ s p t, p ∈ s.repo → p ∉ s.ro → (t, p) ∈ s.quar →
      applyStep s p t = (s, .err p "Destination exists")) ∧
    (∀ s p t, p ∈ s.repo → p ∉ s.ro → (t, p) ∉ s.quar →
      applyStep s p t =
        ({ s with repo := s.repo.erase p, quar := insert (t, p) s.quar },
          .mov ⟨p, t⟩)) := by
  have hc := applyFold_counts (filesToMove plan tiers) st
  have happ : applyQ st plan tiers =
      { state := saveLedger (applyFold st (filesToMove plan tiers)).state
          (loadLedger st ++ (applyFold st (filesToMove plan tiers)).entries),
        moved := (applyFold st (filesToMove plan tiers)).moved,
        skippedCount := (applyFold st (filesToMove plan tiers)).skippedCount,
        errors := (applyFold st (filesToMove plan tiers)).errors,
        entries := (applyFold st (filesToMove plan tiers)).entries,
        trace := (applyFold st (filesToMove plan tiers)).trace ++ [.persisted],
        err := none } := by
    rw [applyQ, if_neg hv]
  rw [happ]
  refine ⟨hc.1, ?_, ?_, ?_, hc.2.1, ?_, ?_, ?_, ?_, ?_⟩
  · simp [List.count_append, hc.2.2]
  · simp
  · rfl
  · rfl
  · intro s p t hp
    rw [applyStep, if_pos hp]
  · intro s p t hp hro
    rw [applyStep, if_neg (by simpa using hp), if_pos hro]
  · intro s p t hp hro hq
    rw [applyStep, if_neg (by simpa using hp), if_neg hro, if_pos hq]
  · intro s p t hp hro hq
    rw [applyStep, if_neg (by simpa using hp), if_neg hro, if_neg hq]

/-- Witness for C7 on a concrete batch: one missing file (skipped), one
read-only file (error), one moved file. -/
theorem applyQ_spec_witness :
    (applyQ ⟨{"a", "b"}, {"b"}, ∅, none, none⟩ ⟨[], [], ["a", "b", "c"]⟩
        ["t3"]).moved.length +
      (applyQ ⟨{"a", "b"}, {"b"}, ∅, none, none⟩ ⟨[], [], ["a", "b", "c"]⟩
        ["t3"]).skippedCount +
      (applyQ ⟨{"a", "b"}, {"b"}, ∅, none, none⟩ ⟨[], [], ["a", "b", "c"]⟩
        ["t3"]).errors.length =
      (filesToMove ⟨[], [], ["a", "b", "c"]⟩ ["t3"]).length ∧
    (applyQ ⟨{"a", "b"}, {"b"}, ∅, none, none⟩ ⟨[], [], ["a", "b", "c"]⟩
      ["t3"]).trace.count FSEvent.persisted = 1 :=
  ⟨(applyQ_spec ⟨{"a", "b"}, {"b"}, ∅, none, none⟩ ⟨[], [], ["a", "b", "c"]⟩
      ["t3"] (by decide)).1,
   (applyQ_spec ⟨{"a", "b"}, {"b"}, ∅, none, none⟩ ⟨[], [], ["a", "b", "c"]⟩
      ["t3"] (by decide)).2.1⟩

theorem saveLedger_fields (s : FSState) (L : List LedgerEntry) :
    (saveLedger s L).repo = s.repo ∧ (saveLedger s L).ro = s.ro ∧
    (saveLedger s L).quar = s.quar ∧
    (saveLedger s L).ledgerFile = some L ∧ (saveLedger s L).tmp = none := by
  simp [saveLedger, renameTmp, writeTmp]

theorem applyFold_clean :
    ∀ (files : List (String × String)) (st : FSState),
      (∀ pt ∈ files, pt.1 ∈ st.repo →
        pt.1 ∉ st.ro ∧ (pt.2, pt.1) ∉ st.quar) →
      (applyFold st files).errors = [] ∧
      ((applyFold st files).entries.map (fun e => e.rel)).Nodup ∧
      (∀ e ∈ (applyFold st files).entries,
        e.rel ∈ st.repo ∧ (e.tier, e.rel) ∉ st.quar) ∧
      (applyFold st files).state.repo =
        st.repo \ ((applyFold st files).entries.map
          (fun e => e.rel)).toFinset ∧
      (applyFold st files).state.quar =
        st.quar ∪ ((applyFold st files).entries.map
          (fun e => (e.tier, e.rel))).toFinset ∧
      (applyFold st files).state.ro = st.ro ∧
      (applyFold st files).state.ledgerFile = st.ledgerFile ∧
      (applyFold st files).state.tmp = st.tmp := by
  intro files
  induction files with
  | nil =>
    intro st _
    simp [applyFold]
  | cons pt rest ih =>
    intro st hyp
    rw [applyFold]
    by_cases hp : pt.1 ∈ st.repo
    · have hcond := hyp pt (by simp) hp
      have hstep : applyStep st pt.1 pt.2 =
          ({ st with repo := st.repo.erase pt.1, quar := insert (pt.2, pt.1) st.quar }, .mov ⟨pt.1, pt.2⟩) := by
        rw [applyStep, if_neg (by simpa using hp), if_neg hcond.1,
          if_neg hcond.2]
      rw [hstep]
      have hyp' : ∀ pt' ∈ rest,
          pt'.1 ∈ st.repo.erase pt.1 →
          pt'.1 ∉ st.ro ∧ (pt'.2, pt'.1) ∉ insert (pt.2, pt.1) st.quar := by
        intro pt' hpt' hmem
        have hs := Finset.mem_erase.mp hmem
        have h0 := hyp pt' (by simp [hpt']) hs.2
        refine ⟨h0.1, ?_⟩
        rw [Finset.mem_insert]
        rintro (heq | hin)
        · exact hs.1 (congrArg Prod.snd heq)
        · exact h0.2 hin
      have hres := ih { st with repo := st.repo.erase pt.1, quar := insert (pt.2, pt.1) st.quar } hyp'
      obtain ⟨he, hnd, hfacts, hrepo, hquar, hro, hlf, htmp⟩ := hres
      refine ⟨by simpa using he, ?_, ?_, ?_, ?_, by simpa using hro,
        by simpa using hlf, by simpa using htmp⟩
      · simp only [List.map_cons, List.nodup_cons]
        refine ⟨?_, hnd⟩
        intro hmem
        obtain ⟨e, hein, herel⟩ := List.mem_map.mp hmem
        have := (hfacts e hein).1
        rw [herel] at this
        exact absurd this (by simp)
      · intro e hein
        rcases List.mem_cons.mp hein with rfl | hein
        · exact ⟨hp, hcond.2⟩
        · have hf := hfacts e hein
          exact ⟨Finset.mem_of_mem_erase hf.1,
            fun hin => hf.2 (Finset.mem_insert_of_mem hin)⟩
      · simp only [List.map_cons, List.toFinset_cons]
        rw [hrepo]
        ext x
        simp only [Finset.mem_sdiff, Finset.mem_erase, List.mem_toFinset,
          Finset.mem_insert]
        tauto
      · simp only [List.map_cons, List.toFinset_cons]
        rw [hquar]
        ext x
        simp only [Finset.mem_union, Finset.mem_insert, List.mem_toFinset]
        tauto
    · have hstep : applyStep st pt.1 pt.2 = (st, .skp) := by
        rw [applyStep, if_pos hp]
      rw [hstep]
      have hres := ih st (fun pt' hpt' => hyp pt' (by simp [hpt']))
      obtain ⟨he, hnd, hfacts, hrepo, hquar, hro, hlf, htmp⟩ := hres
      exact ⟨by simpa using he, hnd, hfacts, hrepo, hquar,
        by simpa using hro, by simpa using hlf, by simpa using htmp⟩

theorem removeFirst_append_self {α : Type} [DecidableEq α] (l : List α)
    (a : α) (h : a ∉ l) : removeFirst (l ++ [a]) a = l := by
  induction l with
  | nil => simp [removeFirst]
  | cons x xs ih =>
    have hx : x ≠ a := by
      intro heq
      exact h (by simp [heq])
    simp only [List.cons_append, removeFirst, if_neg hx, List.append_eq]
    rw [ih (fun hmem => h (by simp [hmem]))]

theorem fold_removeFirst_reverse :
    ∀ (E : List LedgerEntry), E.Nodup →
      (E.reverse).foldl removeFirst E = [] := by
  intro E
  induction E using List.reverseRecOn with
  | nil => simp
  | append_singleton E₀ e ih =>
    intro hnd
    have hnd' : E₀.Nodup ∧ e ∉ E₀ := by
      rw [List.nodup_append] at hnd
      exact ⟨hnd.1, fun hmem => (hnd.2.2 hmem) (by simp)⟩
    rw [List.reverse_append]
    simp only [List.reverse_singleton, List.singleton_append, List.foldl_cons]
    rw [removeFirst_append_self E₀ e hnd'.2]
    exact ih hnd'.1

theorem restoreFold_run :
    ∀ (E : List LedgerEntry) (st : FSState) (led : List LedgerEntry)
      (r0 : List String) (er0 : List (String × String)),
      (E.map (fun e => (e.tier, e.rel))).Nodup →
      (∀ e ∈ E, (e.tier, e.rel) ∈ st.quar) →
      ((E.reverse).foldl restoreStep ⟨st, led, r0, er0⟩).errors = er0 ∧
      ((E.reverse).foldl restoreStep ⟨st, led, r0, er0⟩).restored =
        r0 ++ (E.reverse).map (fun e => e.rel) ∧
      ((E.reverse).foldl restoreStep ⟨st, led, r0, er0⟩).ledger =
        (E.reverse).foldl removeFirst led ∧
      ((E.reverse).foldl restoreStep ⟨st, led, r0, er0⟩).state.repo =
        st.repo ∪ (E.map (fun e => e.rel)).toFinset ∧
      ((E.reverse).foldl restoreStep ⟨st, led, r0, er0⟩).state.quar =
        st.quar \ (E.map (fun e => (e.tier, e.rel))).toFinset ∧
      ((E.reverse).foldl restoreStep ⟨st, led, r0, er0⟩).state.ro = st.ro ∧
      ((E.reverse).foldl restoreStep ⟨st, led, r0, er0⟩).state.ledgerFile =
        st.ledgerFile ∧
      ((E.reverse).foldl restoreStep ⟨st, led, r0, er0⟩).state.tmp =
        st.tmp := by
  intro E
  induction E using List.reverseRecOn with
  | nil =>
    intro st led r0 er0 _ _
    simp
  | append_singleton E₀ e ih =>
    intro st led r0 er0 hnd hq
    have hpair : (e.tier, e.rel) ∈ st.quar := hq e (by simp)
    have hnd₀ : (E₀.map (fun e => (e.tier, e.rel))).Nodup ∧
        (e.tier, e.rel) ∉ E₀.map (fun e => (e.tier, e.rel)) := by
      rw [List.map_append, List.nodup_append] at hnd
      exact ⟨hnd.1, fun hmem => (hnd.2.2 hmem) (by simp)⟩
    have hstep : restoreStep ⟨st, led, r0, er0⟩ e =
        ⟨{ st with quar := st.quar.erase (e.tier, e.rel), repo := insert e.rel st.repo }, removeFirst led e, r0 ++ [e.rel], er0⟩ := by
      rw [restoreStep, if_neg (by simpa using hpair)]
    have hq' : ∀ e' ∈ E₀,
        (e'.tier, e'.rel) ∈ st.quar.erase (e.tier, e.rel) := by
      intro e' he'
      rw [Finset.mem_erase]
      refine ⟨?_, hq e' (by simp [he'])⟩
      intro heq
      exact hnd₀.2 (heq ▸ List.mem_map.mpr ⟨e', he', rfl⟩)
    have hres := ih { st with quar := st.quar.erase (e.tier, e.rel), repo := insert e.rel st.repo } (removeFirst led e) (r0 ++ [e.rel]) er0 hnd₀.1 hq'
    obtain ⟨he1, he2, he3, he4, he5, he6, he7, he8⟩ := hres
    rw [List.reverse_append, List.reverse_singleton, List.singleton_append,
      List.foldl_cons, hstep]
    refine ⟨he1, ?_, ?_, ?_, ?_, by simpa using he6,
      by simpa using he7, by simpa using he8⟩
    · rw [he2]
      simp
    · rw [he3]
      simp
    · rw [he4]
      ext x
      simp
      aesop
    · rw [he5]
      ext x
      simp
      aesop

/-- C2 (amended): starting from an empty (or absent) ledger, for every
plan and state in which no `t3` move hits a destination collision or a
permission error, `apply(tiers=["t3"])` followed by `restore()` (no
count) records no per-file errors, restores exactly as many files as
`apply` moved, leaves zero move entries in the persisted ledger, and
returns the repository file set to its pre-apply state. -/
theorem apply_restore_roundtrip (st : FSState) (plan : MovePlan)
    (hledger : loadLedger st = [])
    (hro : ∀ p ∈ plan.t3, p ∉ st.ro)
    (hquar : ∀ p ∈ plan.t3, ("t3", p) ∉ st.quar) :
    (applyQ st plan ["t3"]).errors = [] ∧
    (restoreQ (applyQ st plan ["t3"]).state none).restored.length =
      (applyQ st plan ["t3"]).moved.length ∧
    loadLedger (restoreQ (applyQ st plan ["t3"]).state none).state = [] ∧
    (restoreQ (applyQ st plan ["t3"]).state none).remaining = 0 ∧
    (restoreQ (applyQ st plan ["t3"]).state none).state.repo = st.repo := by
  have hv : (["t3"] : List String).filterMap normTier ≠ [] := by decide
  have hnorm : (["t3"] : List String).filterMap normTier = ["t3"] := by decide
  have hFdef : filesToMove plan ["t3"] =
      (plan.t3.filter (fun p => p ≠ "")).map (fun p => (p, "t3")) := by
    rw [filesToMove, hnorm]
    simp [planPaths]
  have hcl := applyFold_clean (filesToMove plan ["t3"]) st (by
    intro pt hpt _
    rw [hFdef] at hpt
    obtain ⟨p, hp, rfl⟩ := List.mem_map.mp hpt
    have hp' : p ∈ plan.t3 := (List.mem_filter.mp hp).1
    exact ⟨hro p hp', hquar p hp'⟩)
  obtain ⟨herr, hnd, hfacts, hrepoEq, hquarEq, hroEq, _, _⟩ := hcl
  have hcounts := applyFold_counts (filesToMove plan ["t3"]) st
  have happ : applyQ st plan ["t3"] =
      { state := saveLedger (applyFold st (filesToMove plan ["t3"])).state
          (applyFold st (filesToMove plan ["t3"])).entries,
        moved := (applyFold st (filesToMove plan ["t3"])).moved,
        skippedCount := (applyFold st (filesToMove plan ["t3"])).skippedCount,
        errors := (applyFold st (filesToMove plan ["t3"])).errors,
        entries := (applyFold st (filesToMove plan ["t3"])).entries,
        trace := (applyFold st (filesToMove plan ["t3"])).trace ++ [.persisted],
        err := none } := by
    rw [applyQ, if_neg hv, hledger]
    rfl
  have hsf := saveLedger_fields (applyFold st (filesToMove plan ["t3"])).state
    (applyFold st (filesToMove plan ["t3"])).entries
  have hErels : ((applyFold st (filesToMove plan ["t3"])).entries.map
      (fun e => e.rel)).toFinset ⊆ st.repo := by
    intro x hx
    obtain ⟨e, he, rfl⟩ := List.mem_map.mp (List.mem_toFinset.mp hx)
    exact (hfacts e he).1
  have hpairsnd : ((applyFold st (filesToMove plan ["t3"])).entries.map
      (fun e => (e.tier, e.rel))).Nodup := by
    refine List.Nodup.of_map Prod.snd ?_
    have hmm : (((applyFold st (filesToMove plan ["t3"])).entries.map
        (fun e => (e.tier, e.rel))).map Prod.snd) =
        (applyFold st (filesToMove plan ["t3"])).entries.map
          (fun e => e.rel) := by
      rw [List.map_map]
      rfl
    rw [hmm]
    exact hnd
  have hEnd : (applyFold st (filesToMove plan ["t3"])).entries.Nodup :=
    List.Nodup.of_map _ hnd
  have hload : loadLedger (applyQ st plan ["t3"]).state =
      (applyFold st (filesToMove plan ["t3"])).entries := by
    rw [happ]
    show (saveLedger _ _).ledgerFile.getD [] = _
    rw [hsf.2.2.2.1]
    rfl
  have hmoved : (applyQ st plan ["t3"]).moved =
      (applyFold st (filesToMove plan ["t3"])).entries.map (fun e => e.rel) := by
    rw [happ]
    exact hcounts.2.1.symm
  have herrA : (applyQ st plan ["t3"]).errors = [] := by
    rw [happ]
    exact herr
  have hArepo : (applyQ st plan ["t3"]).state.repo =
      st.repo \ ((applyFold st (filesToMove plan ["t3"])).entries.map
        (fun e => e.rel)).toFinset := by
    rw [happ]
    show (saveLedger _ _).repo = _
    rw [hsf.1]
    exact hrepoEq
  by_cases hE0 : (applyFold st (filesToMove plan ["t3"])).entries = []
  · have hloadnil : loadLedger (applyQ st plan ["t3"]).state = [] := by
      rw [hload, hE0]
    have hrq : restoreQ (applyQ st plan ["t3"]).state none =
        { state := (applyQ st plan ["t3"]).state, restored := [],
          errors := [], remaining := 0, emptyLedger := true } := by
      rw [restoreQ, if_pos hloadnil]
    refine ⟨herrA, ?_, ?_, ?_, ?_⟩
    · rw [hrq, hmoved, hE0]
      rfl
    · rw [hrq]
      exact hloadnil
    · rw [hrq]
    · rw [hrq]
      show (applyQ st plan ["t3"]).state.repo = st.repo
      rw [hArepo, hE0]
      simp
  · have hqmem : ∀ e ∈ (applyFold st (filesToMove plan ["t3"])).entries,
        (e.tier, e.rel) ∈ (applyQ st plan ["t3"]).state.quar := by
      intro e he
      rw [happ]
      show (e.tier, e.rel) ∈ (saveLedger _ _).quar
      rw [hsf.2.2.1, hquarEq]
      exact Finset.mem_union_right _ (List.mem_toFinset.mpr
        (List.mem_map.mpr ⟨e, he, rfl⟩))
    have hrun := restoreFold_run
      (applyFold st (filesToMove plan ["t3"])).entries
      (applyQ st plan ["t3"]).state
      (applyFold st (filesToMove plan ["t3"])).entries [] []
      hpairsnd hqmem
    obtain ⟨r1, r2, r3, r4, r5, r6, r7, r8⟩ := hrun
    have hloadne : ¬ (loadLedger (applyQ st plan ["t3"]).state = []) := by
      rw [hload]
      exact hE0
    have hsel : selectToRestore (loadLedger (applyQ st plan ["t3"]).state)
        none = (applyFold st (filesToMove plan ["t3"])).entries := by
      rw [selectToRestore, hload]
    have hrq : restoreQ (applyQ st plan ["t3"]).state none =
        { state := saveLedger
            (((applyFold st (filesToMove plan ["t3"])).entries.reverse).foldl
              restoreStep ⟨(applyQ st plan ["t3"]).state,
                (applyFold st (filesToMove plan ["t3"])).entries, [], []⟩).state
            (((applyFold st (filesToMove plan ["t3"])).entries.reverse).foldl
              restoreStep ⟨(applyQ st plan ["t3"]).state,
                (applyFold st (filesToMove plan ["t3"])).entries, [], []⟩).ledger,
          restored := (((applyFold st (filesToMove plan ["t3"])).entries.reverse).foldl
              restoreStep ⟨(applyQ st plan ["t3"]).state,
                (applyFold st (filesToMove plan ["t3"])).entries, [], []⟩).restored,
          errors := (((applyFold st (filesToMove plan ["t3"])).entries.reverse).foldl
              restoreStep ⟨(applyQ st plan ["t3"]).state,
                (applyFold st (filesToMove plan ["t3"])).entries, [], []⟩).errors,
          remaining := (((applyFold st (filesToMove plan ["t3"])).entries.reverse).foldl
              restoreStep ⟨(applyQ st plan ["t3"]).state,
                (applyFold st (filesToMove plan ["t3"])).entries, [], []⟩).ledger.length,
          emptyLedger := false } := by
      rw [restoreQ, if_neg hloadne, hsel, hload]
    have hledzero : (((applyFold st (filesToMove plan ["t3"])).entries.reverse).foldl
        restoreStep ⟨(applyQ st plan ["t3"]).state,
          (applyFold st (filesToMove plan ["t3"])).entries, [], []⟩).ledger = [] := by
      rw [r3]
      exact fold_removeFirst_reverse _ hEnd
    refine ⟨herrA, ?_, ?_, ?_, ?_⟩
    · rw [hrq]
      show (((applyFold st (filesToMove plan ["t3"])).entries.reverse).foldl
        restoreStep _).restored.length = _
      rw [r2, hmoved]
      simp
    · rw [hrq]
      show (saveLedger _ _).ledgerFile.getD [] = []
      rw [(saveLedger_fields _ _).2.2.2.1, hledzero]
      rfl
    · rw [hrq]
      show (((applyFold st (filesToMove plan ["t3"])).entries.reverse).foldl
        restoreStep _).ledger.length = 0
      rw [hledzero]
      rfl
    · rw [hrq]
      show (saveLedger _ _).repo = st.repo
      rw [(saveLedger_fields _ _).1, r4, hArepo]
      exact Finset.sdiff_union_of_subset hErels

/-- C2 counterexample: with a pre-existing non-empty ledger the
round-trip property fails as stated.  From a state whose ledger already
holds one move record (its file present in quarantine), `apply` over an
empty T3 plan moves nothing and hits no collision or permission error,
yet `restore()` restores one file — more than `apply` moved — and the
repository file set does not return to its pre-apply state. -/
theorem apply_restore_stale_ledger :
    (applyQ ⟨∅, ∅, {("t3", "x")}, some [⟨"x", "t3"⟩], none⟩ ⟨[], [], []⟩
      ["t3"]).errors = [] ∧
    (applyQ ⟨∅, ∅, {("t3", "x")}, some [⟨"x", "t3"⟩], none⟩ ⟨[], [], []⟩
      ["t3"]).moved.length = 0 ∧
    (restoreQ (applyQ ⟨∅, ∅, {("t3", "x")}, some [⟨"x", "t3"⟩], none⟩
      ⟨[], [], []⟩ ["t3"]).state none).restored.length = 1 ∧
    (restoreQ (applyQ ⟨∅, ∅, {("t3", "x")}, some [⟨"x", "t3"⟩], none⟩
        ⟨[], [], []⟩ ["t3"]).state none).state.repo ≠
      (⟨∅, ∅, {("t3", "x")}, some [⟨"x", "t3"⟩], none⟩ : FSState).repo := by
  decide

/-- Witness for the amended C2: a one-file T3 plan on a writable file
with an empty ledger round-trips. -/
theorem apply_restore_roundtrip_witness :
    (applyQ ⟨{"x"}, ∅, ∅, none, none⟩ ⟨[], [], ["x"]⟩ ["t3"]).errors = [] ∧
    (restoreQ (applyQ ⟨{"x"}, ∅, ∅, none, none⟩ ⟨[], [], ["x"]⟩
      ["t3"]).state none).restored.length =
      (applyQ ⟨{"x"}, ∅, ∅, none, none⟩ ⟨[], [], ["x"]⟩ ["t3"]).moved.length ∧
    (restoreQ (applyQ ⟨{"x"}, ∅, ∅, none, none⟩ ⟨[], [], ["x"]⟩
        ["t3"]).state none).state.repo =
      (⟨{"x"}, ∅, ∅, none, none⟩ : FSState).repo :=
  ⟨(apply_restore_roundtrip ⟨{"x"}, ∅, ∅, none, none⟩ ⟨[], [], ["x"]⟩
      (by decide) (by decide) (by decide)).1,
   (apply_restore_roundtrip ⟨{"x"}, ∅, ∅, none, none⟩ ⟨[], [], ["x"]⟩
      (by decide) (by decide) (by decide)).2.1,
   (apply_restore_roundtrip ⟨{"x"}, ∅, ∅, none, none⟩ ⟨[], [], ["x"]⟩
      (by decide) (by decide) (by decide)).2.2.2.2⟩
